import Mathlib

/-!
# Verification of the movie_filter_api pipeline

Shallow embedding of the repository's core logic:

* `main.py` — candidate data model, the coarse denylist matcher
  (`is_forbidden`, `filter_candidates`);
* `api_server.py` — title normalizer (`_norm_title`), strict forbidden-title
  set (`_build_forbidden_title_set`), the pool-accumulation loop, the final
  composer (`_clean` plus the merge/retry block), and field clipping (`_clip`);
* `response_budget.py` — JSON response model and the cascading response
  budget enforcer (`enforce_response_budget`).

Python strings are modeled as Lean `String`s.  Character classes
(`str.strip`, `str.lower`, the regex class `[\s\W_]`) are modeled faithfully
for ASCII; non-ASCII characters are treated as word characters whose
lower-case form is themselves (this matches Python for the alphabetic
scripts the program handles; Python's full Unicode tables are out of scope).
Fallible Python code (KeyError / TypeError / AttributeError) is modeled with
`Except String`.  External effectful capabilities (the LLM-backed
`generate_candidates` and `write_final`) are modeled as oracle functions
passed in as parameters.
-/

namespace MovieFilter

/-! ## Python string primitives -/

/-- ASCII whitespace, as recognized by Python's `str.strip` and the regex
class `\s` (restricted to ASCII). -/
def pyIsSpace (c : Char) : Bool :=
  c = ' ' || c = '\t' || c = '\n' || c = '\r' || c = '\x0b' || c = '\x0c'

/-- Python word characters (`\w`): ASCII alphanumerics and underscore;
non-ASCII characters are treated as word characters. -/
def pyIsWordChar (c : Char) : Bool :=
  (97 ≤ c.toNat && c.toNat ≤ 122) || (65 ≤ c.toNat && c.toNat ≤ 90)
    || (48 ≤ c.toNat && c.toNat ≤ 57) || c = '_' || !(c.toNat ≤ 127)

/-- Python `str.lower`, per character (ASCII range; identity elsewhere),
in the shape of core's `Char.toLower`. -/
def pyLowerChar (c : Char) : Char :=
  if 65 ≤ c.toNat && c.toNat ≤ 90 then Char.ofNat (c.toNat + 32) else c

/-- Drop trailing characters satisfying `p`. -/
def dropTrailing (p : Char → Bool) (l : List Char) : List Char :=
  (l.reverse.dropWhile p).reverse

/-- Python `str.strip()` on a character list. -/
def pyStripChars (l : List Char) : List Char :=
  dropTrailing pyIsSpace (l.dropWhile pyIsSpace)

/-- Python `str.strip()`. -/
def pyStrip (s : String) : String :=
  String.mk (pyStripChars s.data)

/-- Python `str.lower()`. -/
def pyLower (s : String) : String :=
  String.mk (s.data.map pyLowerChar)

/-- A character removed by `re.sub(r"[\s\W_]+", "", s)`:
whitespace, non-word, or underscore. -/
def normRemoved (c : Char) : Bool :=
  pyIsSpace c || !pyIsWordChar c || c = '_'

/-- `api_server._norm_title`: `(s or "").strip().lower()` followed by
`re.sub(r"[\s\W_]+", "", s)`. -/
def norm_title (s : String) : String :=
  String.mk (((pyStripChars s.data).map pyLowerChar).filter fun c => !normRemoved c)

/-! ## Data model (`main.py`, `api_server.py`) -/

/-- `main.Candidate` (pydantic model). -/
structure Candidate where
  movie : String
  scene_keys : List String
  trick_keys : List String
  one_line_pitch : String
deriving DecidableEq, Repr

/-- `main.FinalItem` (pydantic model). -/
structure FinalItem where
  movie : String
  scene : String
  behind : String
  vibe_point : String
deriving DecidableEq, Repr

/-- A row of `forbidden.json` as consumed by the matchers.  Each field the
code reads is optional, to model Python dict rows that may lack keys
(`fid` is never read by the matchers and is omitted). -/
structure DenylistEntry where
  movie : Option String
  movie_aliases : Option (List String)
  scene_keys : Option (List String)
  trick_keys : Option (List String)
deriving DecidableEq, Repr

/-- Python `d[key]` on an optional field: `KeyError` when missing. -/
def pyIndex {α : Type} (v : Option α) (key : String) : Except String α :=
  match v with
  | some x => Except.ok x
  | none => Except.error ("KeyError: " ++ key)

/-! ## Coarse denylist matcher (`main.is_forbidden`, `main.filter_candidates`) -/

/-- The loop body of `main.is_forbidden` over the remaining entries.
`cmovie` is the candidate's already trimmed+lowered title. -/
def is_forbiddenGo (c : Candidate) (cmovie : String) (scene_min trick_min : Nat) :
    List DenylistEntry → Except String Bool
  | [] => Except.ok false
  | f :: rest => do
      let fmovie ← pyIndex f.movie "movie"
      if cmovie ≠ pyLower (pyStrip fmovie) then
        is_forbiddenGo c cmovie scene_min trick_min rest
      else do
        let fscene ← pyIndex f.scene_keys "scene_keys"
        let ftrick ← pyIndex f.trick_keys "trick_keys"
        let scene_overlap := (c.scene_keys.toFinset ∩ fscene.toFinset).card
        let trick_overlap := (c.trick_keys.toFinset ∩ ftrick.toFinset).card
        if scene_min ≤ scene_overlap ∧ trick_min ≤ trick_overlap then
          Except.ok true
        else
          is_forbiddenGo c cmovie scene_min trick_min rest

/-- `main.is_forbidden(c, forbidden_list, scene_min=2, trick_min=1)`.
Returns `Except.error` where Python raises `KeyError`. -/
def is_forbidden (c : Candidate) (forbidden_list : List DenylistEntry)
    (scene_min : Nat := 2) (trick_min : Nat := 1) : Except String Bool :=
  is_forbiddenGo c (pyLower (pyStrip c.movie)) scene_min trick_min forbidden_list

/-- `main.filter_candidates`: keeps candidates that are not forbidden;
the first `KeyError` raised inside `is_forbidden` propagates. -/
def filter_candidates (cands : List Candidate) (forbidden_list : List DenylistEntry) :
    Except String (List Candidate) :=
  match cands with
  | [] => Except.ok []
  | c :: cs => do
      let b ← is_forbidden c forbidden_list
      let rest ← filter_candidates cs forbidden_list
      Except.ok (if b then rest else c :: rest)

/-! ## Strict forbidden-title set (`api_server._build_forbidden_title_set`) -/

/-- `api_server._build_forbidden_title_set`, modeled as a list whose
membership is the Python set membership: normalized keys of every row's
`movie` and of every element of `movie_aliases`, with the empty key
discarded. -/
def build_forbidden_title_set (forbidden : List DenylistEntry) : List String :=
  ((forbidden.map fun row =>
      norm_title (row.movie.getD "") :: (row.movie_aliases.getD []).map norm_title).flatten).filter
    (fun k => k ≠ "")

/-! ## Field clipping (`api_server._clip`) -/

/-- Per-field limits from `api_server.py`. -/
def MAX_SCENE_CHARS : Nat := 220
def MAX_BEHIND_CHARS : Nat := 240
def MAX_VIBE_CHARS : Nat := 180
def MAX_TITLE_CHARS : Nat := 120

/-- `api_server._clip`: strip, then cut to `limit - 1` characters plus a
one-character ellipsis when over `limit`. -/
def clip (s : String) (limit : Nat) : String :=
  let s := pyStrip s
  if s.length ≤ limit then s
  else String.mk (s.data.take (limit - 1) ++ ['…'])

/-- The per-item clipping performed when building the `/generate` response
(`api_server.generate`, the `items.append({...})` loop).  A response item
is a record with exactly these four fields. -/
structure ClippedItem where
  movie : String
  scene : String
  behind : String
  vibe_point : String
deriving DecidableEq, Repr

/-- One response item built from a composed `FinalItem`. -/
def clipItem (x : FinalItem) : ClippedItem :=
  { movie := clip x.movie MAX_TITLE_CHARS
    scene := clip x.scene MAX_SCENE_CHARS
    behind := clip x.behind MAX_BEHIND_CHARS
    vibe_point := clip x.vibe_point MAX_VIBE_CHARS }

/-! ## Final composer (`api_server.generate`, steps 4 and 5) -/

/-- The loop body of `api_server._clean`: drop empty keys, forbidden keys
and duplicates (by normalized title), keeping first-seen order.  `seen` is
the set of already-seen keys. -/
def cleanLoop (forbidden_titles : List String) :
    List FinalItem → List String → List FinalItem
  | [], _ => []
  | x :: xs, seen =>
      let key := norm_title x.movie
      if key = "" then cleanLoop forbidden_titles xs seen
      else if key ∈ forbidden_titles then cleanLoop forbidden_titles xs seen
      else if key ∈ seen then cleanLoop forbidden_titles xs seen
      else x :: cleanLoop forbidden_titles xs (key :: seen)

/-- `api_server._clean(finals)`. -/
def clean (forbidden_titles : List String) (finals : List FinalItem) : List FinalItem :=
  cleanLoop forbidden_titles finals []

/-- The merge loop of `api_server.generate` (lines 145-154): walk
`cleaned + cleaned2`, skip empty or already-seen keys, append, and break
as soon as `target_k` items are collected.  `cnt` is the current length of
`merged`. -/
def mergeLoop (target_k : Nat) :
    List FinalItem → List String → Nat → List FinalItem
  | [], _, _ => []
  | x :: xs, seen, cnt =>
      let key := norm_title x.movie
      if key = "" ∨ key ∈ seen then mergeLoop target_k xs seen cnt
      else if target_k ≤ cnt + 1 then [x]
      else x :: mergeLoop target_k xs (key :: seen) (cnt + 1)

/-- Steps 4-5 of `api_server.generate`: clean the first `write_final`
output; if short of `target_k`, clean a second output and merge, capped at
`target_k`; finally `cleaned[:target_k]`.  `finals` and `finals2` are the
two (oracle) `write_final` results. -/
def composeFinal (forbidden_titles : List String)
    (finals finals2 : List FinalItem) (target_k : Nat) : List FinalItem :=
  let cleaned := clean forbidden_titles finals
  let cleaned :=
    if cleaned.length < target_k then
      mergeLoop target_k (cleaned ++ clean forbidden_titles finals2) [] 0
    else cleaned
  cleaned.take target_k

/-! ## Pool accumulator (`api_server.generate`, step 3) -/

/-- One pass of the accumulation loop given the batch produced by the
generative source at this attempt: append the survivors, then truncate the
pool to 200 (`if len(safe_pool) > 200: safe_pool = safe_pool[:200]`). -/
def poolStep (pool survivors : List Candidate) : List Candidate :=
  let pool := pool ++ survivors
  if 200 < pool.length then pool.take 200 else pool

/-- The `while tries < 5 and len(safe_pool) < threshold` loop.
`gen i` is the batch returned by the generative source on attempt `i`
(0-based); `remaining = 5 - tries` drives termination exactly as the
`tries < 5` guard does. -/
def accumulateGo (gen : Nat → List Candidate) (forbidden : List DenylistEntry)
    (threshold : Nat) :
    Nat → Nat → List Candidate → Except String (List Candidate × Nat)
  | 0, tries, pool => Except.ok (pool, tries)
  | remaining + 1, tries, pool =>
      if pool.length < threshold then do
        let survivors ← filter_candidates (gen tries) forbidden
        accumulateGo gen forbidden threshold remaining (tries + 1) (poolStep pool survivors)
      else Except.ok (pool, tries)

/-- The pool-accumulation loop of `api_server.generate`: threshold
`max(target_k * 3, 30)`, at most 5 attempts, pool capped at 200.  Returns
the final pool together with the number of generation attempts made. -/
def accumulate (gen : Nat → List Candidate) (forbidden : List DenylistEntry)
    (target_k : Nat) : Except String (List Candidate × Nat) :=
  accumulateGo gen forbidden (max (target_k * 3) 30) 5 0 []

/-! ## The `/generate` pipeline (`api_server.generate`) -/

/-- The full post-auth `/generate` pipeline.  `gen` is the generative
source (attempt number to candidate batch; the style hint and `n` are
absorbed into the oracle), `wf` is the rendering capability
(`write_final`), `forbidden` the loaded denylist, `target_k` the requested
count.  Returns the `items` list of the JSON response. -/
def generateEndpoint (gen : Nat → List Candidate)
    (wf : List Candidate → Nat → List FinalItem)
    (forbidden : List DenylistEntry) (target_k : Nat) :
    Except String (List ClippedItem) := do
  let forbidden_titles := build_forbidden_title_set forbidden
  let (safe_pool, _tries) ← accumulate gen forbidden target_k
  if safe_pool.isEmpty then Except.ok []
  else
    let material := safe_pool.take (max 60 (target_k * 6))
    let finals := wf material target_k
    let material2 := safe_pool.take (max 120 (target_k * 10))
    let finals2 := wf material2 target_k
    Except.ok ((composeFinal forbidden_titles finals finals2 target_k).map clipItem)

/-! ## JSON value model (`response_budget.py`)

Python values appearing in a response dict: strings, ints, bools, `None`,
lists and (insertion-ordered) dicts.  Floats do not occur in this code
path and are not modeled. -/

inductive JVal where
  | null : JVal
  | bool : Bool → JVal
  | int : Int → JVal
  | str : String → JVal
  | arr : List JVal → JVal
  | obj : List (String × JVal) → JVal

/-- A Python dict with string keys (insertion ordered). -/
abbrev RespDict := List (String × JVal)

/-- `d.get(key)` / `key in d` (first match). -/
def getKey : RespDict → String → Option JVal
  | [], _ => none
  | (k, v) :: rest, key => if k = key then some v else getKey rest key

/-- `d[key] = v`: replace in place if present, else append. -/
def setKey : RespDict → String → JVal → RespDict
  | [], key, v => [(key, v)]
  | (k, w) :: rest, key, v =>
      if k = key then (key, v) :: rest else (k, w) :: setKey rest key v

/-- `d.pop(key, None)`: drop the entry if present. -/
def popKey : RespDict → String → RespDict
  | [], _ => []
  | (k, w) :: rest, key => if k = key then rest else (k, w) :: popKey rest key

/-- Python truthiness of a value. -/
def jTruthy : JVal → Bool
  | JVal.null => false
  | JVal.bool b => b
  | JVal.int n => !(n = 0)
  | JVal.str s => !(s = "")
  | JVal.arr l => !l.isEmpty
  | JVal.obj l => !l.isEmpty

/-- Python truthiness of a `d.get(key)` result (`None` when absent). -/
def oTruthy : Option JVal → Bool
  | none => false
  | some v => jTruthy v

/-- Hexadecimal digit (lower case). -/
def hexDigit (n : Nat) : Char :=
  if n < 10 then Char.ofNat (48 + n) else Char.ofNat (87 + n)

/-- `repr`-style escaping of one character inside a single-quoted Python
string literal (simplified: the delimiter is always a single quote). -/
def reprEscChar (c : Char) : List Char :=
  if c = '\\' then ['\\', '\\']
  else if c = '\x27' then ['\\', '\x27']
  else if c = '\n' then ['\\', 'n']
  else if c = '\r' then ['\\', 'r']
  else if c = '\t' then ['\\', 't']
  else if c.toNat < 32 || c.toNat = 127 then
    ['\\', 'x', hexDigit (c.toNat / 16), hexDigit (c.toNat % 16)]
  else [c]

/-- Python `repr` of a string (simplified: the delimiter is always a
single quote). -/
def pyReprStr (s : String) : List Char :=
  '\x27' :: (s.data.map reprEscChar).flatten ++ ['\x27']

mutual

/-- Python `repr` of a value (used by `str()` on lists/dicts). -/
def pyRepr : JVal → List Char
  | JVal.null => ['N', 'o', 'n', 'e']
  | JVal.bool true => ['T', 'r', 'u', 'e']
  | JVal.bool false => ['F', 'a', 'l', 's', 'e']
  | JVal.int n => (toString n).data
  | JVal.str s => pyReprStr s
  | JVal.arr l => '[' :: pyReprArr l ++ [']']
  | JVal.obj l => '\x7b' :: pyReprObj l ++ ['\x7d']

/-- Comma-space separated `repr`s of list elements. -/
def pyReprArr : List JVal → List Char
  | [] => []
  | [v] => pyRepr v
  | v :: vs => pyRepr v ++ ',' :: ' ' :: pyReprArr vs

/-- Comma-space separated `repr`s of dict entries. -/
def pyReprObj : List (String × JVal) → List Char
  | [] => []
  | [(k, v)] => pyReprStr k ++ ':' :: ' ' :: pyRepr v
  | (k, v) :: rest => pyReprStr k ++ ':' :: ' ' :: pyRepr v ++ ',' :: ' ' :: pyReprObj rest

end

/-- Python `str()` of a value. -/
def pyStr : JVal → String
  | JVal.str s => s
  | v => String.mk (pyRepr v)

/-- JSON string escaping of one character
(`json.dumps` with `ensure_ascii=False`). -/
def escChar (c : Char) : List Char :=
  if c = '"' then ['\\', '"']
  else if c = '\\' then ['\\', '\\']
  else if c = '\n' then ['\\', 'n']
  else if c = '\t' then ['\\', 't']
  else if c = '\r' then ['\\', 'r']
  else if c = '\x08' then ['\\', 'b']
  else if c = '\x0c' then ['\\', 'f']
  else if c.toNat < 32 then
    ['\\', 'u', '0', '0', hexDigit (c.toNat / 16), hexDigit (c.toNat % 16)]
  else [c]

/-- JSON escaping of a whole string (no delimiters). -/
def escStr (l : List Char) : List Char :=
  (l.map escChar).flatten

mutual

/-- `json.dumps(v, ensure_ascii=False, separators=(",", ":"))`. -/
def dumps : JVal → List Char
  | JVal.null => ['n', 'u', 'l', 'l']
  | JVal.bool true => ['t', 'r', 'u', 'e']
  | JVal.bool false => ['f', 'a', 'l', 's', 'e']
  | JVal.int n => (toString n).data
  | JVal.str s => '"' :: escStr s.data ++ ['"']
  | JVal.arr l => '[' :: dumpsArr l ++ [']']
  | JVal.obj l => '\x7b' :: dumpsObj l ++ ['\x7d']

/-- Comma separated serializations of array elements. -/
def dumpsArr : List JVal → List Char
  | [] => []
  | [v] => dumps v
  | v :: vs => dumps v ++ ',' :: dumpsArr vs

/-- Comma separated `"key":value` serializations of object entries. -/
def dumpsObj : List (String × JVal) → List Char
  | [] => []
  | [(k, v)] => '"' :: escStr k.data ++ '"' :: ':' :: dumps v
  | (k, v) :: rest => ('"' :: escStr k.data ++ '"' :: ':' :: dumps v) ++ ',' :: dumpsObj rest

end

/-- `response_budget._json_len` of a whole response dict. -/
def json_len (resp : RespDict) : Nat :=
  (dumps (JVal.obj resp)).length

/-! ## Response budget enforcer (`response_budget.py`) -/

/-- `response_budget.MAX_RESPONSE_CHARS`. -/
def MAX_RESPONSE_CHARS : Nat := 90000

/-- `response_budget.FIELD_LIMITS`. -/
def FIELD_LIMITS : List (String × Nat) :=
  [("movie", 80), ("title", 80), ("year", 6), ("scene", 160), ("behind", 180),
   ("vibe_point", 160), ("reason", 180), ("why", 180), ("notes", 180), ("aliases", 220)]

/-- `FIELD_LIMITS.get(k, 160)`. -/
def fieldLimit (k : String) : Nat :=
  ((FIELD_LIMITS.find? fun kv => kv.1 = k).map Prod.snd).getD 160

/-- The whitelist of `_compact_item`. -/
def keep_keys : List String :=
  ["movie", "title", "year", "scene", "behind", "vibe_point", "reason", "why", "notes", "aliases"]

/-- The minimal field subset of the second tier. -/
def mini_keys : List String := ["movie", "year", "vibe_point", "reason"]

/-- Top-level keys stripped by the third tier. -/
def noisy_keys : List String := ["debug", "raw", "candidates", "forbidden_hits", "logs"]

/-- The truncation note set by the third tier. -/
def noteText : String := "Response compacted to fit Actions payload limits."

/-- `response_budget._clip_text`: `None` and numbers/bools pass through;
anything else is stringified and cut to `limit - 1` characters plus a
one-character ellipsis when over `limit`. -/
def clip_text (v : JVal) (limit : Nat) : JVal :=
  match v with
  | JVal.null => JVal.null
  | JVal.int n => JVal.int n
  | JVal.bool b => JVal.bool b
  | v =>
      let s := pyStr v
      if s.length ≤ limit then JVal.str s
      else JVal.str (String.mk (s.data.take (limit - 1) ++ ['…']))

/-- `", ".join([t for t in trimmed if t])`: Python drops falsy entries and
raises `TypeError` if a surviving entry is not a string. -/
def joinAliases (trimmed : List JVal) : Except String String :=
  let kept := trimmed.filter jTruthy
  if kept.all fun v => match v with | JVal.str _ => true | _ => false then
    Except.ok (String.intercalate ", " (kept.map fun v =>
      match v with | JVal.str s => s | _ => ""))
  else Except.error "TypeError: sequence item: expected str instance"

/-- The whitelist-and-clip loop of `_compact_item`
(`for k in keep_keys: if k in item: out[k] = _clip_text(...)`). -/
def compactSelect (item : RespDict) : RespDict :=
  keep_keys.filterMap fun k =>
    (getKey item k).map fun v => (k, clip_text v (fieldLimit k))

/-- The two `movie`/`title` fallbacks of `_compact_item`
(`# movie/title 최소 1개는 남기기`). -/
def withMovieFallback (item out : RespDict) : RespDict :=
  let out :=
    if !oTruthy (getKey out "movie") && oTruthy (getKey item "movie") then
      setKey out "movie" (clip_text ((getKey item "movie").getD JVal.null) 80)
    else out
  if !oTruthy (getKey out "movie") && oTruthy (getKey item "title") then
    setKey out "movie" (clip_text ((getKey item "title").getD JVal.null) 80)
  else out

/-- The final emptiness filter of `_compact_item`
(`if v is not None and v != ""`). -/
def keptVal : JVal → Bool
  | JVal.null => false
  | JVal.str s => !(s = "")
  | _ => true

/-- `response_budget._compact_item`. -/
def compact_item (item : RespDict) : Except String RespDict := do
  let out := withMovieFallback item (compactSelect item)
  let out ← match getKey item "aliases" with
    | some (JVal.arr l) => do
        let parts ← joinAliases ((l.take 6).map fun x => clip_text x 30)
        Except.ok (setKey out "aliases" (JVal.str parts))
    | _ => Except.ok out
  Except.ok (out.filter fun kv => keptVal kv.2)

/-- An element of `resp["items"]` as a dict:
`x if isinstance(x, dict) else {"movie": str(x)}`. -/
def asItemDict (x : JVal) : RespDict :=
  match x with
  | JVal.obj l => l
  | v => [("movie", JVal.str (pyStr v))]

/-- A value that Python can iterate as a dict in a `it.get` / `it.items`
loop; everything else raises. -/
def asObj (x : JVal) : Except String RespDict :=
  match x with
  | JVal.obj l => Except.ok l
  | _ => Except.error "AttributeError: get"

/-- The initial compaction of `enforce_response_budget`
(`if "items" in resp and isinstance(resp["items"], list)`). -/
def compactPass (resp : RespDict) : Except String RespDict :=
  match getKey resp "items" with
  | some (JVal.arr xs) => do
      let ys ← xs.mapM fun x => compact_item (asItemDict x)
      Except.ok (setKey resp "items" (JVal.arr (ys.map JVal.obj)))
  | _ => Except.ok resp

/-- The truthy-selection comprehension of the second tier
(`{k: it.get(k) for k in mini_keys if it.get(k)}`). -/
def miniSelect (it : RespDict) : RespDict :=
  mini_keys.filterMap fun k =>
    (getKey it k).bind fun v => if jTruthy v then some (k, v) else none

/-- One item of the second tier: the truthy selection, the title fallback,
and the tighter clip. -/
def mini_item (it : RespDict) : RespDict :=
  let m := miniSelect it
  let m :=
    if !oTruthy (getKey m "movie") && oTruthy (getKey it "title") then
      setKey m "movie" ((getKey it "title").getD JVal.null)
    else m
  m.map fun kv =>
    (kv.1, clip_text kv.2 (if kv.1 = "vibe_point" || kv.1 = "reason" then 120 else 80))

/-- The second tier of `enforce_response_budget` (초미니 모드).  Iterating a
non-list `resp["items"]` raises in Python except for the empty string and
the empty dict, which iterate zero times; iterating a list that contains a
non-dict raises at `it.get`.  `resp["items"] = new_items` always runs. -/
def miniPass (resp : RespDict) : Except String RespDict :=
  match getKey resp "items" with
  | some (JVal.arr xs) => do
      let items ← xs.mapM asObj
      Except.ok (setKey resp "items" (JVal.arr (items.map fun it => JVal.obj (mini_item it))))
  | none => Except.ok (setKey resp "items" (JVal.arr []))
  | some (JVal.str s) =>
      if s = "" then Except.ok (setKey resp "items" (JVal.arr []))
      else Except.error "AttributeError: get"
  | some (JVal.obj l) =>
      if l.isEmpty then Except.ok (setKey resp "items" (JVal.arr []))
      else Except.error "AttributeError: get"
  | some _ => Except.error "TypeError: not iterable"

/-- One item of the third tier
(`it[k] = _clip_text(v, 60 if k != "movie" else 70)`). -/
def tier2_item (it : RespDict) : RespDict :=
  it.map fun kv => (kv.1, clip_text kv.2 (if kv.1 = "movie" then 70 else 60))

/-- The third tier's in-place clipping followed by stripping the noisy
top-level keys.  The clipping loop iterates `resp.get("items", [])` and
leaves `resp` untouched when it is absent (or iterates zero times). -/
def tier2Pass (resp : RespDict) : Except String RespDict := do
  let resp ← match getKey resp "items" with
    | some (JVal.arr xs) => do
        let items ← xs.mapM asObj
        Except.ok (setKey resp "items" (JVal.arr (items.map fun it => JVal.obj (tier2_item it))))
    | none => Except.ok resp
    | some (JVal.str s) =>
        if s = "" then Except.ok resp else Except.error "AttributeError: items"
    | some (JVal.obj l) =>
        if l.isEmpty then Except.ok resp else Except.error "AttributeError: items"
    | some _ => Except.error "TypeError: not iterable"
  Except.ok (noisy_keys.foldl popKey resp)

/-- The last-resort collapse:
`resp["items"] = [{"movie": _clip_text(it.get("movie", ""), 70)} for it in resp.get("items", [])][:10]`
plus the truncation note. -/
def finalPass (resp : RespDict) : Except String RespDict := do
  let resp ← match getKey resp "items" with
    | some (JVal.arr xs) => do
        let items ← xs.mapM asObj
        Except.ok (setKey resp "items" (JVal.arr
          ((items.map fun it =>
            JVal.obj [("movie", clip_text ((getKey it "movie").getD (JVal.str "")) 70)]).take 10)))
    | none => Except.ok (setKey resp "items" (JVal.arr []))
    | some (JVal.str s) =>
        if s = "" then Except.ok (setKey resp "items" (JVal.arr []))
        else Except.error "AttributeError: get"
    | some (JVal.obj l) =>
        if l.isEmpty then Except.ok (setKey resp "items" (JVal.arr []))
        else Except.error "AttributeError: get"
    | some _ => Except.error "TypeError: not iterable"
  Except.ok (setKey resp "note" (JVal.str noteText))

/-- `response_budget.enforce_response_budget`. -/
def enforce_response_budget (resp : RespDict) : Except String RespDict := do
  let resp ← compactPass resp
  if json_len resp ≤ MAX_RESPONSE_CHARS then Except.ok resp
  else do
    let resp ← miniPass resp
    if json_len resp ≤ MAX_RESPONSE_CHARS then Except.ok resp
    else do
      let resp ← tier2Pass resp
      if MAX_RESPONSE_CHARS < json_len resp then finalPass resp
      else Except.ok resp

/-! ## Serialized-length bookkeeping -/

/-- Contribution of one object entry to `dumpsObj`: quoted escaped key,
colon, serialized value. -/
def entryLen (kv : String × JVal) : Nat :=
  (escStr kv.1.data).length + 3 + (dumps kv.2).length

/-! ## Predicates and concrete inputs used by the claim statements -/

/-- A denylist row carrying every field the coarse matcher indexes
(`movie`, `scene_keys`, `trick_keys`), as `validate_forbidden.py` requires. -/
def WellFormedEntry (f : DenylistEntry) : Prop :=
  f.movie.isSome ∧ f.scene_keys.isSome ∧ f.trick_keys.isSome

/-- Concatenation of the coarse-filter survivors of the first `t` generation
attempts, in order. -/
def survivorsUpTo (gen : Nat → List Candidate) (forbidden : List DenylistEntry) :
    Nat → Except String (List Candidate)
  | 0 => Except.ok []
  | t + 1 => do
      let prev ← survivorsUpTo gen forbidden t
      let s ← filter_candidates (gen t) forbidden
      Except.ok (prev ++ s)

/-- Replace each missing matcher field by its explicit empty value. -/
def fillEntry (e : DenylistEntry) : DenylistEntry :=
  { movie := some (e.movie.getD "")
    movie_aliases := some (e.movie_aliases.getD [])
    scene_keys := e.scene_keys
    trick_keys := e.trick_keys }

/-- Replace an entry's alias field. -/
def withAliases (a : Option (List String)) (e : DenylistEntry) : DenylistEntry :=
  { e with movie_aliases := a }

/-- Scalar JSON value: a string, an int, a bool or `None` — i.e. not a
list or dict. -/
def isScalar : JVal → Bool
  | JVal.arr _ => false
  | JVal.obj _ => false
  | _ => true

/-- A string value. -/
def isStrVal : JVal → Bool
  | JVal.str _ => true
  | _ => false

/-- A scalar that survives `_compact_item`'s final emptiness filter:
not `None` and not the empty string. -/
def scalarNE : JVal → Bool
  | JVal.bool _ => true
  | JVal.int _ => true
  | JVal.str s => !(s = "")
  | _ => false

/-- Well-formedness of a response for the budget-enforcer claims: every
element of `resp["items"]` (when it is a list) that is a dict has scalar
values only.  (Python values that are lists/dicts inside an item make
`str()`-conversion interact with truthiness asymmetrically, which is what
the C8 counterexample exploits.) -/
def ItemsScalar (resp : RespDict) : Prop :=
  match getKey resp "items" with
  | some (JVal.arr xs) => ∀ x ∈ xs, ∀ l, x = JVal.obj l → ∀ kv ∈ l, isScalar kv.2 = true
  | _ => True

/-- A response of the shape the pipeline actually sends to the enforcer:
unique top-level keys, every top-level key is `items` or one of the noisy
keys, and `items` (when present) is a list whose elements are dicts with
string values. -/
def PipelineShaped (resp : RespDict) : Prop :=
  (resp.map Prod.fst).Nodup ∧
  (∀ kv ∈ resp, kv.1 = "items" ∨ kv.1 ∈ noisy_keys) ∧
  (match getKey resp "items" with
   | some (JVal.arr xs) => ∀ x ∈ xs, ∃ l, x = JVal.obj l ∧ ∀ kv ∈ l, isStrVal kv.2 = true
   | none => True
   | some _ => False)

/-- Items compacted by tier 0: unique whitelisted keys, non-empty scalar
values, and a truthy `movie` whenever `title` is truthy. -/
def P0item (l : RespDict) : Prop :=
  (l.map Prod.fst).Nodup ∧
  (∀ kv ∈ l, kv.1 ∈ keep_keys) ∧
  (∀ kv ∈ l, scalarNE kv.2 = true) ∧
  (oTruthy (getKey l "title") = true → oTruthy (getKey l "movie") = true)

/-- Responses whose `items` entry (if a list) holds tier-0-shaped dicts. -/
def ShapeA (resp : RespDict) : Prop :=
  match getKey resp "items" with
  | some (JVal.arr xs) => ∀ x ∈ xs, ∃ l, x = JVal.obj l ∧ P0item l
  | _ => True

/-- A possible `movie` value of a last-resort item. -/
def movieVal (v : JVal) : Prop :=
  (∃ s, v = JVal.str s ∧ s.length ≤ 70) ∨ (∃ n, v = JVal.int n ∧ n ≠ 0) ∨ v = JVal.bool true

/-- The exact shape of a response returned by the last-resort tier. -/
def ShapeFinal (resp : RespDict) : Prop :=
  (∃ xs, getKey resp "items" = some (JVal.arr xs) ∧ xs.length ≤ 10 ∧
    ∀ x ∈ xs, ∃ v, x = JVal.obj [("movie", v)] ∧ movieVal v) ∧
  (∀ k ∈ noisy_keys, getKey resp k = none) ∧
  getKey resp "note" = some (JVal.str noteText)

/-- A 95000-character payload hiding in a top-level key the enforcer never
touches. -/
def bigText : String := String.mk (List.replicate 95000 'a')

/-- C2 counterexample input: over budget, but not through `items`. -/
def badResp : RespDict := [("x", JVal.str bigText)]

/-- What the enforcer returns for `badResp`. -/
def badOut : RespDict :=
  [("x", JVal.str bigText), ("items", JVal.arr []), ("note", JVal.str noteText)]

/-- C8 counterexample input: one item whose `title` is an empty list. -/
def growResp : RespDict := [("items", JVal.arr [JVal.obj [("title", JVal.arr [])]])]

/-- `enforce(growResp)`: the title has been stringified to `"[]"`. -/
def growMid : RespDict := [("items", JVal.arr [JVal.obj [("title", JVal.str "[]")]])]

/-- `enforce(enforce(growResp))`: the now-truthy title is copied into a new
`movie` field, growing the serialization. -/
def growOut : RespDict :=
  [("items", JVal.arr [JVal.obj [("title", JVal.str "[]"), ("movie", JVal.str "[]")]])]


/-! ### Normalizer lemmas -/

theorem toNat_ofNat_valid {n : Nat} (h : n.isValidChar) : (Char.ofNat n).toNat = n := by
  rw [Char.ofNat, dif_pos h]
  simp [Char.ofNatAux, Char.toNat, UInt32.toNat]

theorem pyLowerChar_idem (c : Char) : pyLowerChar (pyLowerChar c) = pyLowerChar c := by
  unfold pyLowerChar
  by_cases h : (65 ≤ c.toNat && c.toNat ≤ 90) = true
  · simp only [h, if_true]
    have hb : 65 ≤ c.toNat ∧ c.toNat ≤ 90 := by
      simpa [Bool.and_eq_true, decide_eq_true_eq] using h
    have hvalid : (c.toNat + 32).isValidChar := Or.inl (by omega)
    have htoNat : (Char.ofNat (c.toNat + 32)).toNat = c.toNat + 32 :=
      toNat_ofNat_valid hvalid
    have hnot : (65 ≤ (Char.ofNat (c.toNat + 32)).toNat
        && (Char.ofNat (c.toNat + 32)).toNat ≤ 90) = false := by
      simp only [htoNat, Bool.and_eq_false_iff, decide_eq_false_iff_not]
      right; omega
    simp only [hnot, Bool.false_eq_true, if_false]
  · simp only [h, Bool.false_eq_true, if_false]

theorem mem_normKept {l : List Char} {c : Char}
    (h : c ∈ l.filter fun c => !normRemoved c) : normRemoved c = false := by
  have := List.of_mem_filter h
  simpa using this

theorem pyIsSpace_of_normKept {c : Char} (h : normRemoved c = false) :
    pyIsSpace c = false := by
  unfold normRemoved at h
  simp only [Bool.or_eq_false_iff] at h
  exact h.1.1

theorem dropWhile_eq_self_of_none {p : Char → Bool} {l : List Char}
    (h : ∀ c ∈ l, p c = false) : l.dropWhile p = l := by
  cases l with
  | nil => rfl
  | cons a t =>
      rw [List.dropWhile_cons]
      simp [h a (by simp)]

theorem pyStripChars_eq_self {l : List Char}
    (h : ∀ c ∈ l, pyIsSpace c = false) : pyStripChars l = l := by
  unfold pyStripChars dropTrailing
  rw [dropWhile_eq_self_of_none h]
  rw [dropWhile_eq_self_of_none (by intro c hc; exact h c (List.mem_reverse.mp hc))]
  exact List.reverse_reverse l

/-- `C7` core: the normalizer is idempotent. -/
theorem norm_title_idem (s : String) : norm_title (norm_title s) = norm_title s := by
  unfold norm_title
  congr 1
  have hmem : ∀ c ∈ ((pyStripChars s.data).map pyLowerChar).filter (fun c => !normRemoved c),
      normRemoved c = false := fun c hc => mem_normKept hc
  set inner := ((pyStripChars s.data).map pyLowerChar).filter (fun c => !normRemoved c) with hinner
  have hstrip : pyStripChars inner = inner :=
    pyStripChars_eq_self (fun c hc => pyIsSpace_of_normKept (hmem c hc))
  rw [show (String.mk inner).data = inner from rfl, hstrip]
  have hmapped : inner.map pyLowerChar = inner := by
    rw [hinner, List.filter_map, List.map_map]
    congr 1
    funext c
    simp [Function.comp, pyLowerChar_idem]
  rw [hmapped]
  exact List.filter_eq_self.mpr (by intro c hc; simpa using hmem c hc)

/-- C7: the title normalizer is idempotent — `normalize(normalize(x)) ==
normalize(x)` for every string — and case/whitespace/punctuation/underscore
insensitive; in particular `normalize("Titanic (1997)") ==
normalize("titanic1997")`. -/
theorem C7_normalizer_idempotent :
    (∀ x : String, norm_title (norm_title x) = norm_title x) ∧
    norm_title "Titanic (1997)" = norm_title "titanic1997" :=
  ⟨norm_title_idem, by rfl⟩

/-! ### Except bind reduction helpers -/

theorem except_bind_ok {e a b : Type} (x : a) (f : a → Except e b) :
    (Except.ok x : Except e a) >>= f = f x := rfl

theorem except_bind_error {e a b : Type} (err : e) (f : a → Except e b) :
    (Except.error err : Except e a) >>= f = (Except.error err : Except e b) := rfl

/-! ### Coarse matcher lemmas -/

theorem is_forbiddenGo_wf_iff (c : Candidate) (cm : String) (smin tmin : Nat)
    (fl : List DenylistEntry) (hwf : ∀ f ∈ fl, WellFormedEntry f) :
    is_forbiddenGo c cm smin tmin fl = Except.ok true ↔
      ∃ f ∈ fl, cm = pyLower (pyStrip (f.movie.getD "")) ∧
        smin ≤ (c.scene_keys.toFinset ∩ (f.scene_keys.getD []).toFinset).card ∧
        tmin ≤ (c.trick_keys.toFinset ∩ (f.trick_keys.getD []).toFinset).card := by
  induction fl with
  | nil => simp [is_forbiddenGo]
  | cons f rest ih =>
      obtain ⟨m, hm⟩ := Option.isSome_iff_exists.mp (hwf f (by simp)).1
      obtain ⟨sk, hsk⟩ := Option.isSome_iff_exists.mp (hwf f (by simp)).2.1
      obtain ⟨tk, htk⟩ := Option.isSome_iff_exists.mp (hwf f (by simp)).2.2
      have ihr := ih fun g hg => hwf g (List.mem_cons_of_mem _ hg)
      rw [List.exists_mem_cons_iff]
      simp only [is_forbiddenGo, hm, hsk, htk, pyIndex, except_bind_ok, Option.getD_some]
      by_cases hcm : cm = pyLower (pyStrip m)
      · subst hcm
        by_cases hov : smin ≤ (c.scene_keys.toFinset ∩ sk.toFinset).card ∧
            tmin ≤ (c.trick_keys.toFinset ∩ tk.toFinset).card
        · simp [hov]
        · simp [hov, ihr]
      · simp [hcm, ihr]

theorem is_forbiddenGo_zero_scene (c : Candidate) (cm : String) (smin tmin : Nat)
    (fl : List DenylistEntry) (hwf : ∀ f ∈ fl, WellFormedEntry f) (hs : 1 ≤ smin)
    (hzero : ∀ f ∈ fl, (c.scene_keys.toFinset ∩ (f.scene_keys.getD []).toFinset).card = 0) :
    is_forbiddenGo c cm smin tmin fl = Except.ok false := by
  induction fl with
  | nil => simp [is_forbiddenGo]
  | cons f rest ih =>
      obtain ⟨m, hm⟩ := Option.isSome_iff_exists.mp (hwf f (by simp)).1
      obtain ⟨sk, hsk⟩ := Option.isSome_iff_exists.mp (hwf f (by simp)).2.1
      obtain ⟨tk, htk⟩ := Option.isSome_iff_exists.mp (hwf f (by simp)).2.2
      have ihr := ih (fun g hg => hwf g (List.mem_cons_of_mem _ hg))
        (fun g hg => hzero g (List.mem_cons_of_mem _ hg))
      have hz : (c.scene_keys.toFinset ∩ sk.toFinset).card = 0 := by
        have := hzero f (by simp)
        rwa [hsk, Option.getD_some] at this
      simp only [is_forbiddenGo, hm, hsk, htk, pyIndex, except_bind_ok]
      by_cases hcm : cm = pyLower (pyStrip m)
      · subst hcm
        have hov : ¬ (smin ≤ (c.scene_keys.toFinset ∩ sk.toFinset).card ∧
            tmin ≤ (c.trick_keys.toFinset ∩ tk.toFinset).card) := by
          rw [hz]; omega
        simp [hov, ihr]
      · simp [hcm, ihr]

/-- C4: a candidate is forbidden under the coarse matcher iff some denylist
entry's `movie`, compared case-insensitively after trimming (raw literal
comparison — not the normalized key, not alias-aware), equals the
candidate's movie AND their `scene_keys` intersect in at least 2 elements
AND their `trick_keys` intersect in at least 1; in particular an exact
title collision with zero scene-key overlap is never filtered at the
coarse stage. -/
theorem C4_coarse_matcher (c : Candidate) (fl : List DenylistEntry)
    (hwf : ∀ f ∈ fl, WellFormedEntry f) :
    (is_forbidden c fl = Except.ok true ↔
      ∃ f ∈ fl, pyLower (pyStrip c.movie) = pyLower (pyStrip (f.movie.getD "")) ∧
        2 ≤ (c.scene_keys.toFinset ∩ (f.scene_keys.getD []).toFinset).card ∧
        1 ≤ (c.trick_keys.toFinset ∩ (f.trick_keys.getD []).toFinset).card) ∧
    ((∀ f ∈ fl, (c.scene_keys.toFinset ∩ (f.scene_keys.getD []).toFinset).card = 0) →
      is_forbidden c fl = Except.ok false ∧
      filter_candidates [c] fl = Except.ok [c]) := by
  constructor
  · exact is_forbiddenGo_wf_iff c _ 2 1 fl hwf
  · intro hzero
    have h0 : is_forbidden c fl = Except.ok false :=
      is_forbiddenGo_zero_scene c _ 2 1 fl hwf (by omega) hzero
    refine ⟨h0, ?_⟩
    simp [filter_candidates, h0, except_bind_ok]

/-- C4 witness: an entry titled exactly like the candidate but with no
scene-key overlap does not make the candidate forbidden, and the coarse
filter keeps the candidate. -/
theorem C4_coarse_matcher_witness :
    is_forbidden ⟨"Titanic", ["iceberg"], ["miniature"], ""⟩
      [⟨some "Titanic", some ["타이타닉"], some [], some ["miniature"]⟩] = Except.ok false ∧
    filter_candidates [⟨"Titanic", ["iceberg"], ["miniature"], ""⟩]
      [⟨some "Titanic", some ["타이타닉"], some [], some ["miniature"]⟩]
      = Except.ok [⟨"Titanic", ["iceberg"], ["miniature"], ""⟩] :=
  (C4_coarse_matcher ⟨"Titanic", ["iceberg"], ["miniature"], ""⟩
      [⟨some "Titanic", some ["타이타닉"], some [], some ["miniature"]⟩]
      (by intro f hf; simp at hf; subst hf; exact ⟨rfl, rfl, rfl⟩)).2
    (by intro f hf; simp at hf; subst hf; rfl)

/-! ### C6: missing denylist fields -/

/-- C6 counterexample: an entry whose `movie` matches the candidate but
that lacks `scene_keys` makes the coarse matcher raise `KeyError` instead
of treating the field as empty. -/
theorem C6_counterexample :
    is_forbidden ⟨"Titanic", [], [], ""⟩ [⟨some "Titanic", none, none, some []⟩]
      = Except.error "KeyError: scene_keys" := by rfl

/-- C6 (amended): the strict matcher treats missing `movie`/`movie_aliases`
as empty collections and never fails, and a missing `movie_aliases` never
affects the coarse matcher; but the coarse matcher is not total: it raises
`KeyError` when an entry lacks `movie`, or when an entry whose `movie`
matches the candidate (case-insensitively after trimming) lacks
`scene_keys` or `trick_keys`.  When no error occurs, absent fields never
contribute to a match. -/
theorem C6_missing_fields (c : Candidate) (l : List DenylistEntry) :
    (build_forbidden_title_set (l.map fillEntry) = build_forbidden_title_set l) ∧
    (∀ a : Option (List String),
      is_forbidden c (l.map (withAliases a)) = is_forbidden c l) ∧
    (∀ e : DenylistEntry, e.movie = none →
      ∀ rest, is_forbidden c (e :: rest) = Except.error "KeyError: movie") ∧
    (∀ e : DenylistEntry, ∀ m, e.movie = some m →
      pyLower (pyStrip c.movie) = pyLower (pyStrip m) → e.scene_keys = none →
      ∀ rest, is_forbidden c (e :: rest) = Except.error "KeyError: scene_keys") ∧
    (∀ e : DenylistEntry, ∀ m sk, e.movie = some m →
      pyLower (pyStrip c.movie) = pyLower (pyStrip m) →
      e.scene_keys = some sk → e.trick_keys = none →
      ∀ rest, is_forbidden c (e :: rest) = Except.error "KeyError: trick_keys") := by
  refine ⟨?_, ?_, ?_, ?_, ?_⟩
  · unfold build_forbidden_title_set
    congr 1
    rw [List.map_map]
    refine congrArg List.flatten (List.map_congr_left ?_)
    intro row _
    simp only [Function.comp_apply, fillEntry, Option.getD_some]
  · intro a
    unfold is_forbidden
    induction l with
    | nil => rfl
    | cons f rest ih =>
        simp only [List.map_cons, is_forbiddenGo, withAliases]
        cases hm : f.movie with
        | none => rfl
        | some m =>
            simp only [pyIndex, except_bind_ok]
            by_cases hcm : pyLower (pyStrip c.movie) ≠ pyLower (pyStrip m) <;>
              simp [hcm, ih]
  · intro e he rest
    unfold is_forbidden is_forbiddenGo
    rw [he]
    rfl
  · intro e m he hcm hs rest
    unfold is_forbidden is_forbiddenGo
    rw [he, hs]
    simp [pyIndex, hcm, except_bind_ok, except_bind_error]
  · intro e m sk he hcm hs ht rest
    unfold is_forbidden is_forbiddenGo
    rw [he, hs, ht]
    simp [pyIndex, hcm, except_bind_ok, except_bind_error]

/-- C6 witness: concrete instances of the amended behavior. -/
theorem C6_missing_fields_witness :
    build_forbidden_title_set ([⟨none, none, some [], some []⟩].map fillEntry) =
      build_forbidden_title_set [⟨none, none, some [], some []⟩] ∧
    is_forbidden ⟨"X", [], [], ""⟩ [⟨none, some ["A"], none, none⟩]
      = Except.error "KeyError: movie" :=
  ⟨(C6_missing_fields ⟨"X", [], [], ""⟩ [⟨none, none, some [], some []⟩]).1,
   (C6_missing_fields ⟨"X", [], [], ""⟩ []).2.2.1 ⟨none, some ["A"], none, none⟩ rfl []⟩

/-! ### C3: pool accumulator -/

theorem take_append_take {α : Type} (n : Nat) (l l' : List α) :
    (l.take n ++ l').take n = (l ++ l').take n := by
  by_cases h : l.length ≤ n
  · rw [List.take_of_length_le h]
  · push_neg at h
    have h1 : n ≤ (l.take n).length := by
      rw [List.length_take]
      omega
    rw [List.take_append_of_le_length h1, List.take_take,
      List.take_append_of_le_length (by omega), Nat.min_self]

theorem poolStep_eq (pool survivors : List Candidate) :
    poolStep pool survivors = (pool ++ survivors).take 200 := by
  unfold poolStep
  by_cases h : 200 < (pool ++ survivors).length
  · simp [h]
  · simp only [h, if_false]
    exact (List.take_of_length_le (by omega)).symm

theorem accumulateGo_spec (gen : Nat → List Candidate) (fb : List DenylistEntry)
    (th : Nat) :
    ∀ (r t : Nat) (p S pool : List Candidate) (tries : Nat),
      survivorsUpTo gen fb t = Except.ok S → p = S.take 200 →
      accumulateGo gen fb th r t p = Except.ok (pool, tries) →
      tries ≤ t + r ∧ pool.length ≤ 200 ∧
        ∃ S', survivorsUpTo gen fb tries = Except.ok S' ∧ pool = S'.take 200 := by
  intro r
  induction r with
  | zero =>
      intro t p S pool tries hS hp h
      simp only [accumulateGo, Except.ok.injEq, Prod.mk.injEq] at h
      obtain ⟨h1, h2⟩ := h
      subst h1; subst h2
      refine ⟨Nat.le_add_right _ _, ?_, S, hS, hp⟩
      rw [hp]
      exact le_trans (List.length_take_le _ _) (by omega)
  | succ r ih =>
      intro t p S pool tries hS hp h
      rw [accumulateGo] at h
      by_cases hlen : p.length < th
      · rw [if_pos hlen] at h
        cases hfc : filter_candidates (gen t) fb with
        | error e =>
            rw [hfc, except_bind_error] at h
            exact absurd h (by simp)
        | ok s =>
            rw [hfc, except_bind_ok] at h
            have hS' : survivorsUpTo gen fb (t + 1) = Except.ok (S ++ s) := by
              simp [survivorsUpTo, hS, hfc, except_bind_ok]
            have hp' : poolStep p s = (S ++ s).take 200 := by
              rw [poolStep_eq, hp, take_append_take]
            have hrec := ih (t + 1) (poolStep p s) (S ++ s) pool tries hS' hp' h
            exact ⟨by omega, hrec.2⟩
      · rw [if_neg hlen] at h
        simp only [Except.ok.injEq, Prod.mk.injEq] at h
        obtain ⟨h1, h2⟩ := h
        subst h1; subst h2
        refine ⟨Nat.le_add_right _ _, ?_, S, hS, hp⟩
        rw [hp]
        exact le_trans (List.length_take_le _ _) (by omega)

/-- C3 (amended): every run of the pool-accumulation loop performs at most
5 generation attempts (the code's retry ceiling is `tries < 5`, not 4), and
the accumulated pool never exceeds 200 candidates, truncation keeping the
earliest-appended items (the pool is always the 200-prefix of the
concatenated survivors of the attempts actually made). -/
theorem C3_pool_accumulator (gen : Nat → List Candidate)
    (forbidden : List DenylistEntry) (target_k : Nat)
    (pool : List Candidate) (tries : Nat)
    (h : accumulate gen forbidden target_k = Except.ok (pool, tries)) :
    tries ≤ 5 ∧ pool.length ≤ 200 ∧
      ∃ S, survivorsUpTo gen forbidden tries = Except.ok S ∧ pool = S.take 200 := by
  have hspec := accumulateGo_spec gen forbidden (max (target_k * 3) 30)
    5 0 [] [] pool tries rfl rfl h
  exact ⟨by omega, hspec.2⟩

/-- C3 counterexample: a generator that always returns an empty batch makes
the loop perform 5 generation attempts — more than the 4 the claim allows. -/
theorem C3_counterexample :
    accumulate (fun _ => []) [] 10 = Except.ok ([], 5) ∧ ¬ (5 ≤ 4) :=
  ⟨by rfl, by decide⟩

/-- C3 witness: the amended bound applied to a concrete run. -/
theorem C3_pool_accumulator_witness :
    (5 : Nat) ≤ 5 ∧
    (List.replicate 5 (⟨"M", [], [], ""⟩ : Candidate)).length ≤ 200 ∧
      ∃ S, survivorsUpTo (fun _ => [⟨"M", [], [], ""⟩]) [] 5 = Except.ok S ∧
        List.replicate 5 (⟨"M", [], [], ""⟩ : Candidate) = S.take 200 :=
  C3_pool_accumulator (fun _ => [⟨"M", [], [], ""⟩]) [] 1 _ 5 (by rfl)

/-! ### C9: empty pool -/

/-- C9: if the generative source yields zero surviving candidates across
all attempts, the pool is empty and the `/generate` pipeline returns an
empty item list as a valid, non-error result. -/
theorem C9_empty_pool (gen : Nat → List Candidate)
    (wf : List Candidate → Nat → List FinalItem)
    (forbidden : List DenylistEntry) (target_k tries : Nat)
    (hacc : accumulate gen forbidden target_k = Except.ok ([], tries)) :
    generateEndpoint gen wf forbidden target_k = Except.ok [] := by
  unfold generateEndpoint
  rw [hacc]
  rfl

/-- C9 witness: a generator whose candidates are all denylisted (here:
empty batches) produces the empty response without error. -/
theorem C9_empty_pool_witness :
    generateEndpoint (fun _ => []) (fun _ _ => []) [] 10 = Except.ok [] :=
  C9_empty_pool (fun _ => []) (fun _ _ => []) [] 10 5 (by rfl)

/-! ### Composer lemmas (C1, C5) -/

theorem cleanLoop_sound (ft : List String) :
    ∀ (l : List FinalItem) (seen : List String) (x : FinalItem),
      x ∈ cleanLoop ft l seen →
      x ∈ l ∧ norm_title x.movie ∉ ft ∧ norm_title x.movie ≠ "" ∧
        norm_title x.movie ∉ seen := by
  intro l
  induction l with
  | nil => intro seen x hx; simp [cleanLoop] at hx
  | cons y ys ih =>
      intro seen x hx
      simp only [cleanLoop] at hx
      by_cases h1 : norm_title y.movie = ""
      · rw [if_pos h1] at hx
        obtain ⟨m1, m2, m3, m4⟩ := ih seen x hx
        exact ⟨List.mem_cons_of_mem _ m1, m2, m3, m4⟩
      · rw [if_neg h1] at hx
        by_cases h2 : norm_title y.movie ∈ ft
        · rw [if_pos h2] at hx
          obtain ⟨m1, m2, m3, m4⟩ := ih seen x hx
          exact ⟨List.mem_cons_of_mem _ m1, m2, m3, m4⟩
        · rw [if_neg h2] at hx
          by_cases h3 : norm_title y.movie ∈ seen
          · rw [if_pos h3] at hx
            obtain ⟨m1, m2, m3, m4⟩ := ih seen x hx
            exact ⟨List.mem_cons_of_mem _ m1, m2, m3, m4⟩
          · rw [if_neg h3] at hx
            rcases List.mem_cons.mp hx with rfl | hx'
            · exact ⟨List.mem_cons_self _ _, h2, h1, h3⟩
            · obtain ⟨m1, m2, m3, m4⟩ := ih _ x hx'
              refine ⟨List.mem_cons_of_mem _ m1, m2, m3, fun hmem => ?_⟩
              exact m4 (List.mem_cons_of_mem _ hmem)

theorem cleanLoop_pairwise (ft : List String) :
    ∀ (l : List FinalItem) (seen : List String),
      (cleanLoop ft l seen).Pairwise
        (fun a b => norm_title a.movie ≠ norm_title b.movie) := by
  intro l
  induction l with
  | nil => intro seen; simp [cleanLoop]
  | cons y ys ih =>
      intro seen
      simp only [cleanLoop]
      by_cases h1 : norm_title y.movie = ""
      · rw [if_pos h1]; exact ih seen
      · rw [if_neg h1]
        by_cases h2 : norm_title y.movie ∈ ft
        · rw [if_pos h2]; exact ih seen
        · rw [if_neg h2]
          by_cases h3 : norm_title y.movie ∈ seen
          · rw [if_pos h3]; exact ih seen
          · rw [if_neg h3]
            refine List.Pairwise.cons ?_ (ih _)
            intro b hb
            have := (cleanLoop_sound ft ys _ b hb).2.2.2
            intro heq
            exact this (heq ▸ List.mem_cons_self _ _)

theorem mergeLoop_sound (k : Nat) :
    ∀ (l : List FinalItem) (seen : List String) (cnt : Nat) (x : FinalItem),
      x ∈ mergeLoop k l seen cnt →
      x ∈ l ∧ norm_title x.movie ≠ "" ∧ norm_title x.movie ∉ seen := by
  intro l
  induction l with
  | nil => intro seen cnt x hx; simp [mergeLoop] at hx
  | cons y ys ih =>
      intro seen cnt x hx
      simp only [mergeLoop] at hx
      by_cases h1 : norm_title y.movie = "" ∨ norm_title y.movie ∈ seen
      · rw [if_pos h1] at hx
        obtain ⟨m1, m2, m3⟩ := ih seen cnt x hx
        exact ⟨List.mem_cons_of_mem _ m1, m2, m3⟩
      · rw [if_neg h1] at hx
        push_neg at h1
        by_cases h2 : k ≤ cnt + 1
        · rw [if_pos h2] at hx
          rcases List.mem_singleton.mp hx with rfl
          exact ⟨List.mem_cons_self _ _, h1.1, h1.2⟩
        · rw [if_neg h2] at hx
          rcases List.mem_cons.mp hx with rfl | hx'
          · exact ⟨List.mem_cons_self _ _, h1.1, h1.2⟩
          · obtain ⟨m1, m2, m3⟩ := ih _ _ x hx'
            refine ⟨List.mem_cons_of_mem _ m1, m2, fun hmem => ?_⟩
            exact m3 (List.mem_cons_of_mem _ hmem)

theorem mergeLoop_pairwise (k : Nat) :
    ∀ (l : List FinalItem) (seen : List String) (cnt : Nat),
      (mergeLoop k l seen cnt).Pairwise
        (fun a b => norm_title a.movie ≠ norm_title b.movie) := by
  intro l
  induction l with
  | nil => intro seen cnt; simp [mergeLoop]
  | cons y ys ih =>
      intro seen cnt
      simp only [mergeLoop]
      by_cases h1 : norm_title y.movie = "" ∨ norm_title y.movie ∈ seen
      · rw [if_pos h1]; exact ih seen cnt
      · rw [if_neg h1]
        by_cases h2 : k ≤ cnt + 1
        · rw [if_pos h2]; simp
        · rw [if_neg h2]
          refine List.Pairwise.cons ?_ (ih _ _)
          intro b hb
          have := (mergeLoop_sound k ys _ _ b hb).2.2
          intro heq
          exact this (heq ▸ List.mem_cons_self _ _)

theorem composeFinal_mem {ft : List String} {f1 f2 : List FinalItem} {k : Nat}
    {x : FinalItem} (hx : x ∈ composeFinal ft f1 f2 k) :
    norm_title x.movie ∉ ft ∧ norm_title x.movie ≠ "" := by
  unfold composeFinal at hx
  have hx' := List.mem_of_mem_take hx
  by_cases hlen : (clean ft f1).length < k
  · rw [if_pos hlen] at hx'
    have hm := mergeLoop_sound k _ _ _ x hx'
    rcases List.mem_append.mp hm.1 with hc | hc
    · exact ⟨(cleanLoop_sound ft f1 [] x hc).2.1, hm.2.1⟩
    · exact ⟨(cleanLoop_sound ft f2 [] x hc).2.1, hm.2.1⟩
  · rw [if_neg hlen] at hx'
    have hc := cleanLoop_sound ft f1 [] x hx'
    exact ⟨hc.2.1, hc.2.2.1⟩

/-- C5: for every pool and requested count `k`, the composer returns at
most `k` items; no two returned items share a `NormalizedTitleKey`; items
with an empty normalized key are dropped.  (Returning fewer than `k` items
is a valid outcome: the composer is a total function into plain lists and
raises nothing.) -/
theorem C5_composer_bounds (ft : List String) (finals finals2 : List FinalItem)
    (k : Nat) :
    (composeFinal ft finals finals2 k).length ≤ k ∧
    (composeFinal ft finals finals2 k).Pairwise
      (fun a b => norm_title a.movie ≠ norm_title b.movie) ∧
    ∀ x ∈ composeFinal ft finals finals2 k, norm_title x.movie ≠ "" := by
  refine ⟨List.length_take_le _ _, ?_, ?_⟩
  · unfold composeFinal
    by_cases hlen : (clean ft finals).length < k
    · simp only [hlen, if_true]
      exact (mergeLoop_pairwise k _ _ _).sublist (List.take_sublist _ _)
    · simp only [hlen, if_false]
      exact (cleanLoop_pairwise ft _ _).sublist (List.take_sublist _ _)
  · intro x hx
    exact (composeFinal_mem hx).2

/-- C5 witness: a concrete pool with a duplicate title and `k = 2`. -/
theorem C5_composer_bounds_witness :
    (composeFinal [] [⟨"Inception", "", "", ""⟩, ⟨"inception", "", "", ""⟩,
        ⟨"Parasite", "", "", ""⟩] [] 2).length ≤ 2 ∧
    (composeFinal [] [⟨"Inception", "", "", ""⟩, ⟨"inception", "", "", ""⟩,
        ⟨"Parasite", "", "", ""⟩] [] 2).Pairwise
      (fun a b => norm_title a.movie ≠ norm_title b.movie) ∧
    ∀ x ∈ composeFinal [] [⟨"Inception", "", "", ""⟩, ⟨"inception", "", "", ""⟩,
        ⟨"Parasite", "", "", ""⟩] [] 2, norm_title x.movie ≠ "" :=
  C5_composer_bounds [] _ [] 2

theorem mem_build_forbidden {forbidden : List DenylistEntry} {e : DenylistEntry}
    {a : String} (he : e ∈ forbidden)
    (ha : a ∈ (e.movie.getD "") :: (e.movie_aliases.getD []))
    (hne : norm_title a ≠ "") :
    norm_title a ∈ build_forbidden_title_set forbidden := by
  unfold build_forbidden_title_set
  rw [List.mem_filter]
  refine ⟨?_, by simpa using hne⟩
  rw [List.mem_flatten]
  refine ⟨_, List.mem_map_of_mem _ he, ?_⟩
  rcases List.mem_cons.mp ha with rfl | ha'
  · exact List.mem_cons_self _ _
  · exact List.mem_cons_of_mem _ (List.mem_map_of_mem _ ha')

/-- C1: every item in the composer's strict-mode output has a normalized
title key absent from the forbidden-title set; equivalently, for every
denylist entry `e` and every title among `e.movie` and `e.movie_aliases`,
no returned item's title normalizes to the same key. -/
theorem C1_strict_output_safe (forbidden : List DenylistEntry)
    (finals finals2 : List FinalItem) (target_k : Nat) (x : FinalItem)
    (hx : x ∈ composeFinal (build_forbidden_title_set forbidden) finals finals2 target_k) :
    norm_title x.movie ∉ build_forbidden_title_set forbidden ∧
    ∀ e ∈ forbidden, ∀ a ∈ (e.movie.getD "") :: (e.movie_aliases.getD []),
      norm_title x.movie ≠ norm_title a := by
  have h := composeFinal_mem hx
  refine ⟨h.1, ?_⟩
  intro e he a ha
  by_cases hae : norm_title a = ""
  · rw [hae]; exact h.2
  · intro heq
    exact h.1 (heq ▸ mem_build_forbidden he ha hae)

/-- C1 witness: with \"Titanic\" (alias \"타이타닉\") denylisted, the
surviving item \"Inception\" matches neither the forbidden set nor any
entry title or alias. -/
theorem C1_strict_output_safe_witness :
    norm_title "Inception" ∉
      build_forbidden_title_set [⟨some "Titanic", some ["타이타닉"], some [], some []⟩] ∧
    ∀ e ∈ [(⟨some "Titanic", some ["타이타닉"], some [], some []⟩ : DenylistEntry)],
      ∀ a ∈ (e.movie.getD "") :: (e.movie_aliases.getD []),
        norm_title "Inception" ≠ norm_title a := by
  have := C1_strict_output_safe
    [⟨some "Titanic", some ["타이타닉"], some [], some []⟩]
    [⟨"Inception", "", "", ""⟩] [] 3 ⟨"Inception", "", "", ""⟩ (by decide)
  exact this

/-! ### C10: response item shape -/

theorem clip_length_le (s : String) {limit : Nat} (h : 1 ≤ limit) :
    (clip s limit).length ≤ limit := by
  simp only [clip]
  split
  · assumption
  · next hgt =>
      show ((pyStrip s).data.take (limit - 1) ++ ['…']).length ≤ limit
      rw [List.length_append, List.length_take]
      simp only [List.length_singleton]
      omega

/-- C10: every item of the `/generate` response is a record with exactly
the four fields `movie`, `scene`, `behind`, `vibe_point` (the `ClippedItem`
record), each a string of length at most 120, 220, 240 and 180 characters
respectively; a string whose stripped form exceeds its limit is cut to
`limit - 1` characters plus the one-character ellipsis marker. -/
theorem C10_response_item_shape (gen : Nat → List Candidate)
    (wf : List Candidate → Nat → List FinalItem) (forbidden : List DenylistEntry)
    (target_k : Nat) (items : List ClippedItem)
    (h : generateEndpoint gen wf forbidden target_k = Except.ok items) :
    (∀ it ∈ items, it.movie.length ≤ 120 ∧ it.scene.length ≤ 220 ∧
      it.behind.length ≤ 240 ∧ it.vibe_point.length ≤ 180) ∧
    (∀ s : String, ∀ limit : Nat,
      ((pyStrip s).length ≤ limit → clip s limit = pyStrip s) ∧
      (limit < (pyStrip s).length →
        clip s limit = String.mk ((pyStrip s).data.take (limit - 1) ++ ['…']))) := by
  constructor
  · intro it hit
    unfold generateEndpoint at h
    cases hacc : accumulate gen forbidden target_k with
    | error e =>
        rw [hacc, except_bind_error] at h
        exact absurd h (by simp)
    | ok pt =>
        obtain ⟨pool, tries⟩ := pt
        rw [hacc, except_bind_ok] at h
        by_cases hemp : pool.isEmpty
        · simp only [hemp, if_true] at h
          obtain rfl := (Except.ok.injEq _ _).mp h
          simp at hit
        · simp only [hemp, Bool.false_eq_true, if_false] at h
          obtain rfl := (Except.ok.injEq _ _).mp h
          obtain ⟨pre, _hpre, rfl⟩ := List.mem_map.mp hit
          refine ⟨clip_length_le _ (by decide), clip_length_le _ (by decide),
            clip_length_le _ (by decide), clip_length_le _ (by decide)⟩
  · intro s limit
    constructor
    · intro hle
      simp only [clip, if_pos hle]
    · intro hgt
      simp only [clip, if_neg (by omega : ¬ (pyStrip s).length ≤ limit)]

/-- C10 witness: a pipeline run whose single final item has an over-long
`behind` field still satisfies all four length bounds. -/
theorem C10_response_item_shape_witness :
    (∀ it ∈ [clipItem ⟨"Inception", "x", String.mk (List.replicate 500 'b'), "y"⟩],
      it.movie.length ≤ 120 ∧ it.scene.length ≤ 220 ∧
      it.behind.length ≤ 240 ∧ it.vibe_point.length ≤ 180) ∧
    (∀ s : String, ∀ limit : Nat,
      ((pyStrip s).length ≤ limit → clip s limit = pyStrip s) ∧
      (limit < (pyStrip s).length →
        clip s limit = String.mk ((pyStrip s).data.take (limit - 1) ++ ['…']))) :=
  C10_response_item_shape
    (fun _ => [⟨"Inception", [], [], ""⟩]) (fun _ _ => [⟨"Inception", "x",
      String.mk (List.replicate 500 'b'), "y"⟩]) [] 1 _ (by rfl)

/-! ### Dict (assoc list) lemmas -/

theorem getKey_eq_none_iff {l : RespDict} {k : String} :
    getKey l k = none ↔ ∀ kv ∈ l, kv.1 ≠ k := by
  induction l with
  | nil => simp [getKey]
  | cons e rest ih =>
      obtain ⟨k', v⟩ := e
      simp only [getKey]
      by_cases h : k' = k
      · subst h; simp
      · simp [h, ih]

theorem getKey_setKey_self (l : RespDict) (k : String) (v : JVal) :
    getKey (setKey l k v) k = some v := by
  induction l with
  | nil => simp [setKey, getKey]
  | cons e rest ih =>
      obtain ⟨k', w⟩ := e
      simp only [setKey]
      by_cases h : k' = k
      · simp [h, getKey]
      · simp [h, getKey, ih]

theorem getKey_setKey_ne (l : RespDict) {k k' : String} (v : JVal) (h : k' ≠ k) :
    getKey (setKey l k v) k' = getKey l k' := by
  have hne : ¬ k = k' := fun heq => h heq.symm
  induction l with
  | nil => simp [setKey, getKey, hne]
  | cons e rest ih =>
      obtain ⟨k'', w⟩ := e
      simp only [setKey]
      by_cases h2 : k'' = k
      · subst h2
        simp [getKey, hne]
      · simp only [h2, if_false, getKey]
        by_cases h3 : k'' = k'
        · simp [h3]
        · simp [h3, ih]

theorem setKey_self {l : RespDict} {k : String} {v : JVal}
    (h : getKey l k = some v) : setKey l k v = l := by
  induction l with
  | nil => simp [getKey] at h
  | cons e rest ih =>
      obtain ⟨k', w⟩ := e
      simp only [getKey] at h
      simp only [setKey]
      by_cases h2 : k' = k
      · subst h2
        simp only [if_true] at h ⊢
        obtain rfl := (Option.some.injEq _ _).mp (by simpa using h)
        simp
      · simp only [h2, if_false] at h ⊢
        rw [ih h]

theorem setKey_setKey (l : RespDict) (k : String) (v w : JVal) :
    setKey (setKey l k v) k w = setKey l k w := by
  induction l with
  | nil => simp [setKey]
  | cons e rest ih =>
      obtain ⟨k', u⟩ := e
      simp only [setKey]
      by_cases h : k' = k
      · simp [h, setKey]
      · simp [h, setKey, ih]

theorem length_setKey_of_mem {l : RespDict} {k : String} {v w : JVal}
    (h : getKey l k = some v) : (setKey l k w).length = l.length := by
  induction l with
  | nil => simp [getKey] at h
  | cons e rest ih =>
      obtain ⟨k', u⟩ := e
      simp only [getKey] at h
      simp only [setKey]
      by_cases h2 : k' = k
      · simp [h2]
      · simp only [h2, if_false] at h ⊢
        simp [ih h]

theorem popKey_of_absent {l : RespDict} {k : String} (h : getKey l k = none) :
    popKey l k = l := by
  induction l with
  | nil => rfl
  | cons e rest ih =>
      obtain ⟨k', w⟩ := e
      simp only [getKey] at h
      simp only [popKey]
      by_cases h2 : k' = k
      · simp [h2] at h
      · simp only [h2, if_false] at h ⊢
        rw [ih h]

theorem popKey_sublist (l : RespDict) (k : String) : (popKey l k).Sublist l := by
  induction l with
  | nil => simp [popKey]
  | cons e rest ih =>
      obtain ⟨k', w⟩ := e
      simp only [popKey]
      by_cases h : k' = k
      · simp [h]
      · simp only [h, if_false]
        exact ih.cons₂ _

theorem mem_keys_setKey {l : RespDict} {k k'' : String} {v : JVal}
    (h : k'' ∈ (setKey l k v).map Prod.fst) :
    k'' ∈ l.map Prod.fst ∨ k'' = k := by
  induction l with
  | nil => simpa [setKey] using h
  | cons e rest ih =>
      obtain ⟨k', w⟩ := e
      simp only [setKey] at h
      by_cases h2 : k' = k
      · simp only [h2, if_true, List.map_cons, List.mem_cons] at h
        rcases h with rfl | h
        · exact Or.inr rfl
        · exact Or.inl (by simp only [List.map_cons, List.mem_cons]; right; exact h)
      · simp only [h2, if_false, List.map_cons, List.mem_cons] at h
        rcases h with rfl | h
        · exact Or.inl (by simp)
        · rcases ih h with h3 | h3
          · exact Or.inl (by simp only [List.map_cons, List.mem_cons]; right; exact h3)
          · exact Or.inr h3

theorem nodup_keys_setKey {l : RespDict} (h : (l.map Prod.fst).Nodup)
    (k : String) (v : JVal) : ((setKey l k v).map Prod.fst).Nodup := by
  induction l with
  | nil => simp [setKey]
  | cons e rest ih =>
      obtain ⟨k', w⟩ := e
      simp only [List.map_cons, List.nodup_cons] at h
      simp only [setKey]
      by_cases h2 : k' = k
      · subst h2
        simpa using h
      · simp only [h2, if_false, List.map_cons, List.nodup_cons]
        refine ⟨fun hmem => ?_, ih h.2⟩
        rcases mem_keys_setKey hmem with h3 | h3
        · exact h.1 h3
        · exact h2 h3

theorem nodup_keys_popKey {l : RespDict} (h : (l.map Prod.fst).Nodup)
    (k : String) : ((popKey l k).map Prod.fst).Nodup :=
  h.sublist ((popKey_sublist l k).map Prod.fst)

theorem getKey_popKey_ne {l : RespDict} {k k' : String} (h : k' ≠ k) :
    getKey (popKey l k) k' = getKey l k' := by
  have hne : ¬ k = k' := fun heq => h heq.symm
  induction l with
  | nil => rfl
  | cons e rest ih =>
      obtain ⟨k'', w⟩ := e
      simp only [popKey, getKey]
      by_cases h2 : k'' = k
      · subst h2
        have hne2 : ¬ k'' = k' := hne
        simp [getKey, hne2]
      · simp only [h2, if_false, getKey]
        by_cases h3 : k'' = k'
        · simp [h3]
        · simp [h3, ih]

theorem popKey_eq_filter {l : RespDict} (h : (l.map Prod.fst).Nodup)
    (k : String) : popKey l k = l.filter (fun kv => !(kv.1 = k)) := by
  induction l with
  | nil => rfl
  | cons e rest ih =>
      obtain ⟨k', w⟩ := e
      simp only [List.map_cons, List.nodup_cons] at h
      simp only [popKey, List.filter_cons]
      by_cases h2 : k' = k
      · subst h2
        simp only [decide_True, Bool.not_true, Bool.false_eq_true, if_true, if_false]
        refine (List.filter_eq_self.mpr ?_).symm
        intro kv hkv
        simp only [Bool.not_eq_true', decide_eq_false_iff_not]
        intro heq
        exact h.1 (heq ▸ List.mem_map_of_mem Prod.fst hkv)
      · simp [h2, ih h.2]

theorem foldl_popKey_eq_filter :
    ∀ (ks : List String) (l : RespDict), (l.map Prod.fst).Nodup →
      ks.foldl popKey l = l.filter (fun kv => !(ks.contains kv.1)) := by
  intro ks
  induction ks with
  | nil =>
      intro l _
      simp
  | cons k ks ih =>
      intro l h
      rw [List.foldl_cons, popKey_eq_filter h k,
        ih _ (((List.filter_sublist _).map Prod.fst).nodup h), List.filter_filter]
      apply List.filter_congr
      intro kv _
      by_cases h3 : kv.1 = k <;> simp [List.contains_cons, h3, Bool.and_comm]


/-! ### Serialization length formulas -/

theorem dumpsObj_single_length (k : String) (v : JVal) :
    ((('"' :: escStr k.data ++ '"' :: ':' :: dumps v) : List Char)).length
      = entryLen (k, v) := by
  simp only [entryLen, List.length_cons, List.length_append]
  omega

theorem dumpsObj_length (l : RespDict) :
    (dumpsObj l).length = (l.map entryLen).sum + (l.length - 1) := by
  induction l with
  | nil => simp [dumpsObj]
  | cons kv rest ih =>
      obtain ⟨k, v⟩ := kv
      cases rest with
      | nil =>
          show ((('"' :: escStr k.data ++ '"' :: ':' :: dumps v) : List Char)).length = _
          rw [dumpsObj_single_length]
          simp
      | cons kv2 rest2 =>
          show (('"' :: escStr k.data ++ '"' :: ':' :: dumps v)
            ++ ',' :: dumpsObj (kv2 :: rest2)).length = _
          rw [List.length_append, dumpsObj_single_length, List.length_cons, ih]
          simp only [List.map_cons, List.sum_cons, List.length_cons]
          omega

theorem dumps_obj_length (l : RespDict) :
    (dumps (JVal.obj l)).length = 2 + (dumpsObj l).length := by
  show (('\x7b' :: dumpsObj l ++ ['\x7d']) : List Char).length = _
  simp only [List.length_cons, List.length_append, List.length_nil]
  omega

theorem json_len_eq (resp : RespDict) :
    json_len resp = 2 + (resp.map entryLen).sum + (resp.length - 1) := by
  rw [json_len, dumps_obj_length, dumpsObj_length]
  omega

theorem dumpsArr_length (l : List JVal) :
    (dumpsArr l).length = (l.map fun v => (dumps v).length).sum + (l.length - 1) := by
  induction l with
  | nil => simp [dumpsArr]
  | cons v rest ih =>
      cases rest with
      | nil => simp [dumpsArr]
      | cons v2 rest2 =>
          simp only [dumpsArr, List.length_append, List.length_cons] at ih ⊢
          simp only [List.map_cons, List.sum_cons] at ih ⊢
          omega

theorem dumps_arr_length (l : List JVal) :
    (dumps (JVal.arr l)).length = 2 + (dumpsArr l).length := by
  show (('[' :: dumpsArr l ++ [']']) : List Char).length = _
  simp only [List.length_cons, List.length_append, List.length_nil]
  omega

/-! ### Length monotonicity for dict updates -/

theorem sum_entryLen_setKey_le {l : RespDict} {k : String} {v w : JVal}
    (hget : getKey l k = some v) (hle : (dumps w).length ≤ (dumps v).length) :
    ((setKey l k w).map entryLen).sum ≤ (l.map entryLen).sum := by
  induction l with
  | nil => simp [getKey] at hget
  | cons e rest ih =>
      obtain ⟨k', u⟩ := e
      simp only [getKey] at hget
      simp only [setKey]
      by_cases h2 : k' = k
      · subst h2
        simp only [if_true] at hget ⊢
        obtain rfl := (Option.some.injEq _ _).mp (by simpa using hget)
        simp only [List.map_cons, List.sum_cons, entryLen]
        omega
      · simp only [h2, if_false] at hget ⊢
        simp only [List.map_cons, List.sum_cons]
        have := ih hget
        omega

theorem json_len_setKey_le {resp : RespDict} {k : String} {v w : JVal}
    (hget : getKey resp k = some v)
    (hle : (dumps w).length ≤ (dumps v).length) :
    json_len (setKey resp k w) ≤ json_len resp := by
  rw [json_len_eq, json_len_eq, length_setKey_of_mem hget]
  have := sum_entryLen_setKey_le hget hle
  omega

/-! ### Escaping and clipping lengths -/

theorem escChar_length_pos (c : Char) : 1 ≤ (escChar c).length := by
  unfold escChar
  repeat' split
  all_goals simp

theorem escChar_length_le (c : Char) : (escChar c).length ≤ 6 := by
  unfold escChar
  repeat' split
  all_goals simp

theorem escStr_append (a b : List Char) :
    escStr (a ++ b) = escStr a ++ escStr b := by
  simp [escStr]

theorem length_le_escStr_length (l : List Char) :
    l.length ≤ (escStr l).length := by
  induction l with
  | nil => simp [escStr]
  | cons c rest ih =>
      simp only [escStr, List.map_cons, List.flatten_cons, List.length_append]
      have h1 := escChar_length_pos c
      have h2 : (c :: rest).length = rest.length + 1 := rfl
      simp only [escStr] at ih
      rw [h2]
      omega

theorem escStr_length_le (l : List Char) :
    (escStr l).length ≤ 6 * l.length := by
  induction l with
  | nil => simp [escStr]
  | cons c rest ih =>
      simp only [escStr, List.map_cons, List.flatten_cons, List.length_append]
      have h1 := escChar_length_le c
      have h2 : (c :: rest).length = rest.length + 1 := rfl
      simp only [escStr] at ih
      rw [h2]
      omega

theorem escChar_hellip : escChar '…' = ['…'] := by rfl

/-- Clipping a scalar never lengthens its serialization. -/
theorem dumps_clip_text_le {v : JVal} (hscalar : isScalar v = true) (limit : Nat) :
    (dumps (clip_text v limit)).length ≤ (dumps v).length := by
  cases v with
  | null => simp [clip_text]
  | int n => simp [clip_text]
  | bool b => simp [clip_text]
  | arr l => simp [isScalar] at hscalar
  | obj l => simp [isScalar] at hscalar
  | str s =>
      simp only [clip_text, pyStr]
      by_cases h : s.length ≤ limit
      · simp [h]
      · simp only [h, if_false]
        simp only [dumps, List.length_cons, List.length_append]
        have hsplit : escStr s.data
            = escStr (s.data.take (limit - 1)) ++ escStr (s.data.drop (limit - 1)) := by
          rw [← escStr_append, List.take_append_drop]
        have hdroplen : 1 ≤ (s.data.drop (limit - 1)).length := by
          rw [List.length_drop]
          have : s.length = s.data.length := rfl
          omega
        have hdrop : 1 ≤ (escStr (s.data.drop (limit - 1))).length :=
          le_trans hdroplen (length_le_escStr_length _)
        have htake : escStr (s.data.take (limit - 1) ++ ['…'])
            = escStr (s.data.take (limit - 1)) ++ ['…'] := by
          rw [escStr_append]
          rfl
        rw [htake, hsplit]
        simp only [List.length_append, List.length_singleton]
        omega

/-- Clipping preserves Python truthiness of scalars. -/
theorem jTruthy_clip_text {v : JVal} (hscalar : isScalar v = true) (limit : Nat) :
    jTruthy (clip_text v limit) = jTruthy v := by
  cases v with
  | null => rfl
  | int n => rfl
  | bool b => rfl
  | arr l => simp [isScalar] at hscalar
  | obj l => simp [isScalar] at hscalar
  | str s =>
      simp only [clip_text, pyStr]
      by_cases h : s.length ≤ limit
      · simp [h]
      · simp only [h, if_false, jTruthy]
        have hdata : (String.mk (s.data.take (limit - 1) ++ ['…'])).data
            = s.data.take (limit - 1) ++ ['…'] := rfl
        have hne : ¬ (String.mk (s.data.take (limit - 1) ++ ['…']) = "") := by
          intro heq
          have h0 : (s.data.take (limit - 1) ++ ['…']).length = 0 := by
            rw [← hdata, heq]
            rfl
          simp at h0
        have hne2 : ¬ (s = "") := by
          intro heq
          subst heq
          simp at h
        simp [hne, hne2]

/-- Clipping always produces a scalar. -/
theorem isScalar_clip_text (v : JVal) (limit : Nat) :
    isScalar (clip_text v limit) = true := by
  cases v with
  | null => rfl
  | int n => rfl
  | bool b => rfl
  | str s => simp only [clip_text]; split <;> rfl
  | arr l => simp only [clip_text]; split <;> rfl
  | obj l => simp only [clip_text]; split <;> rfl

/-- Clipping keeps non-empty scalars non-empty. -/
theorem scalarNE_clip_text {v : JVal} (h : scalarNE v = true) (limit : Nat) :
    scalarNE (clip_text v limit) = true := by
  cases v with
  | null => simp [scalarNE] at h
  | int n => rfl
  | bool b => rfl
  | arr l => simp [scalarNE] at h
  | obj l => simp [scalarNE] at h
  | str s =>
      have htr : jTruthy (clip_text (JVal.str s) limit) = jTruthy (JVal.str s) :=
        jTruthy_clip_text (by rfl) limit
      have hs : ¬ (s = "") := by
        simpa [scalarNE] using h
      have : jTruthy (clip_text (JVal.str s) limit) = true := by
        rw [htr]
        simpa [jTruthy] using hs
      cases hcv : clip_text (JVal.str s) limit with
      | str t =>
          rw [hcv] at this
          simpa [scalarNE, jTruthy] using this
      | null => rw [hcv] at this; simp [jTruthy] at this
      | int n => simp [scalarNE]
      | bool b => simp [scalarNE]
      | arr l2 =>
          have := isScalar_clip_text (JVal.str s) limit
          rw [hcv] at this
          simp [isScalar] at this
      | obj l2 =>
          have := isScalar_clip_text (JVal.str s) limit
          rw [hcv] at this
          simp [isScalar] at this

/-- Clipping a string value yields a string value. -/
theorem isStrVal_clip_text {v : JVal} (h : isStrVal v = true) (limit : Nat) :
    isStrVal (clip_text v limit) = true := by
  cases v with
  | str s => simp only [clip_text]; split <;> rfl
  | null => simp [isStrVal] at h
  | int n => simp [isStrVal] at h
  | bool b => simp [isStrVal] at h
  | arr l => simp [isStrVal] at h
  | obj l => simp [isStrVal] at h

/-- The length of a clipped string value: at most `max |s| limit`. -/
theorem clip_text_str_length {s : String} {limit : Nat} :
    ∃ t, clip_text (JVal.str s) limit = JVal.str t ∧ t.length ≤ max s.length limit := by
  simp only [clip_text, pyStr]
  by_cases h : s.length ≤ limit
  · exact ⟨s, by simp [h], le_max_left _ _⟩
  · refine ⟨String.mk (s.data.take (limit - 1) ++ ['…']), by simp [h], ?_⟩
    show (s.data.take (limit - 1) ++ ['…']).length ≤ max s.length limit
    rw [List.length_append, List.length_take]
    have h1 : (['…'] : List Char).length = 1 := rfl
    have h2 : s.length = s.data.length := rfl
    rw [h1]
    omega


/-! ### Keyed filterMap lemmas -/

theorem filterMap_congr_mem {α β : Type} {f h : α → Option β} :
    ∀ {l : List α}, (∀ a ∈ l, f a = h a) → l.filterMap f = l.filterMap h := by
  intro l
  induction l with
  | nil => intro _; rfl
  | cons a rest ih =>
      intro hfa
      rw [List.filterMap_cons, List.filterMap_cons, hfa a (by simp),
        ih fun b hb => hfa b (by simp [hb])]

theorem getKey_filterMap_keyed (f : String → Option (String × JVal))
    (hf : ∀ k e, f k = some e → e.1 = k) :
    ∀ (sel : List String), sel.Nodup → ∀ k,
      getKey (sel.filterMap f) k = if k ∈ sel then (f k).map Prod.snd else none := by
  intro sel
  induction sel with
  | nil => intro _ k; simp [getKey]
  | cons s rest ih =>
      intro hnd k
      simp only [List.nodup_cons] at hnd
      rw [List.filterMap_cons]
      cases hfs : f s with
      | none =>
          rw [ih hnd.2 k]
          by_cases hk : k = s
          · subst hk
            have hnr : k ∉ rest := hnd.1
            simp [hnr, hfs]
          · simp [List.mem_cons, hk]
      | some e =>
          have he := hf s e hfs
          simp only [getKey, he]
          by_cases hk : s = k
          · subst hk
            simp [hfs]
          · rw [if_neg hk, ih hnd.2 k]
            have hk2 : ¬ k = s := fun heq => hk heq.symm
            simp [List.mem_cons, hk2]

theorem keys_filterMap_keyed (f : String → Option (String × JVal))
    (hf : ∀ k e, f k = some e → e.1 = k) :
    ∀ sel : List String,
      (sel.filterMap f).map Prod.fst = sel.filter fun k => (f k).isSome := by
  intro sel
  induction sel with
  | nil => rfl
  | cons s rest ih =>
      rw [List.filterMap_cons, List.filter_cons]
      cases hfs : f s with
      | none => simp [hfs, ih]
      | some e => simp [hfs, hf s e hfs, ih]

theorem nodup_keys_filterMap_keyed (f : String → Option (String × JVal))
    (hf : ∀ k e, f k = some e → e.1 = k) {sel : List String} (h : sel.Nodup) :
    ((sel.filterMap f).map Prod.fst).Nodup := by
  rw [keys_filterMap_keyed f hf]
  exact h.filter _

theorem perm_cons_popKey {l : RespDict} {k : String} {v : JVal}
    (h : getKey l k = some v) : l.Perm ((k, v) :: popKey l k) := by
  induction l with
  | nil => simp [getKey] at h
  | cons e rest ih =>
      obtain ⟨k', w⟩ := e
      simp only [getKey] at h
      simp only [popKey]
      by_cases h2 : k' = k
      · subst h2
        simp only [if_true] at h ⊢
        obtain rfl := (Option.some.injEq _ _).mp (by simpa using h)
        exact List.Perm.refl _
      · simp only [h2, if_false] at h ⊢
        exact (List.Perm.cons _ (ih h)).trans (List.Perm.swap _ _ _)

/-- The key lemma connecting a keyed, conditional selection over a key
whitelist with a filter of the dict itself: for duplicate-free keys the two
produce the same entries up to order. -/
theorem keyed_filterMap_perm (p : String → JVal → Bool) (g : String → JVal → JVal) :
    ∀ (sel : List String) (l : RespDict), sel.Nodup → (l.map Prod.fst).Nodup →
      List.Perm
        (sel.filterMap fun k => (getKey l k).bind fun v =>
          if p k v then some (k, g k v) else none)
        ((l.filter fun kv => decide (kv.1 ∈ sel) && p kv.1 kv.2).map
          fun kv => (kv.1, g kv.1 kv.2)) := by
  intro sel
  induction sel with
  | nil =>
      intro l _ _
      simp
  | cons s rest ih =>
      intro l hsel hl
      simp only [List.nodup_cons] at hsel
      rw [List.filterMap_cons]
      cases hgs : getKey l s with
      | none =>
          have hster : ∀ kv ∈ l, kv.1 ≠ s := getKey_eq_none_iff.mp hgs
          have hfe : (l.filter fun kv => decide (kv.1 ∈ s :: rest) && p kv.1 kv.2)
              = l.filter fun kv => decide (kv.1 ∈ rest) && p kv.1 kv.2 := by
            apply List.filter_congr
            intro kv hkv
            have := hster kv hkv
            simp [List.mem_cons, this]
          simp only [hgs, Option.none_bind]
          rw [hfe]
          exact ih l hsel.2 hl
      | some v =>
          have hperm : l.Perm ((s, v) :: popKey l s) := perm_cons_popKey hgs
          have hnodup2 : ((popKey l s).map Prod.fst).Nodup := nodup_keys_popKey hl s
          have hkeysperm : (l.map Prod.fst).Perm (s :: (popKey l s).map Prod.fst) := by
            simpa using hperm.map Prod.fst
          have hsnot : s ∉ (popKey l s).map Prod.fst := by
            have hnodup3 : (s :: (popKey l s).map Prod.fst).Nodup :=
              hkeysperm.nodup_iff.mp hl
            exact (List.nodup_cons.mp hnodup3).1
          have hcongr : (rest.filterMap fun k => (getKey l k).bind fun v =>
                if p k v then some (k, g k v) else none)
              = rest.filterMap fun k => (getKey (popKey l s) k).bind fun v =>
                if p k v then some (k, g k v) else none := by
            apply filterMap_congr_mem
            intro k hk
            have hks : k ≠ s := by
              intro heq
              subst heq
              exact hsel.1 hk
            rw [getKey_popKey_ne hks]
          have hfilter2 : ((popKey l s).filter fun kv =>
                decide (kv.1 ∈ s :: rest) && p kv.1 kv.2)
              = (popKey l s).filter fun kv => decide (kv.1 ∈ rest) && p kv.1 kv.2 := by
            apply List.filter_congr
            intro kv hkv
            have hne : kv.1 ≠ s := by
              intro heq
              have hmem : kv.1 ∈ (popKey l s).map Prod.fst :=
                List.mem_map_of_mem Prod.fst hkv
              rw [heq] at hmem
              exact hsnot hmem
            simp [List.mem_cons, hne]
          have hRHS : ((l.filter fun kv => decide (kv.1 ∈ s :: rest) && p kv.1 kv.2).map
                fun kv => (kv.1, g kv.1 kv.2)).Perm
              (((((s, v) :: popKey l s).filter fun kv =>
                decide (kv.1 ∈ s :: rest) && p kv.1 kv.2)).map
                fun kv => (kv.1, g kv.1 kv.2)) :=
            (hperm.filter _).map _
          have hih := ih (popKey l s) hsel.2 hnodup2
          by_cases hps : p s v = true
          · have hb : ((((s, v) :: popKey l s).filter fun kv =>
                  decide (kv.1 ∈ s :: rest) && p kv.1 kv.2).map
                  fun kv => (kv.1, g kv.1 kv.2))
                = (s, g s v) :: (((popKey l s).filter fun kv =>
                  decide (kv.1 ∈ rest) && p kv.1 kv.2).map
                  fun kv => (kv.1, g kv.1 kv.2)) := by
              rw [List.filter_cons]
              have hcond : (decide ((s, v).1 ∈ s :: rest) && p (s, v).1 (s, v).2)
                  = true := by
                simp [hps]
              rw [hcond]
              simp only [if_true, List.map_cons, hfilter2]
            simp only [hgs, Option.some_bind, hps, if_true]
            refine List.Perm.trans ?_ hRHS.symm
            rw [hb, hcongr]
            exact List.Perm.cons _ hih
          · have hps2 : p s v = false := by
              cases hpv : p s v
              · rfl
              · exact absurd hpv hps
            have hb : ((((s, v) :: popKey l s).filter fun kv =>
                  decide (kv.1 ∈ s :: rest) && p kv.1 kv.2).map
                  fun kv => (kv.1, g kv.1 kv.2))
                = (((popKey l s).filter fun kv =>
                  decide (kv.1 ∈ rest) && p kv.1 kv.2).map
                  fun kv => (kv.1, g kv.1 kv.2)) := by
              rw [List.filter_cons]
              have hcond : (decide ((s, v).1 ∈ s :: rest) && p (s, v).1 (s, v).2)
                  = false := by
                simp [hps2]
              rw [hcond]
              simp only [Bool.false_eq_true, if_false, hfilter2]
            simp only [hgs, Option.some_bind, hps2, Bool.false_eq_true, if_false]
            refine List.Perm.trans ?_ hRHS.symm
            rw [hb, hcongr]
            exact hih


/-! ### Small supporting lemmas -/

theorem getKey_some_mem {l : RespDict} {k : String} {v : JVal}
    (h : getKey l k = some v) : (k, v) ∈ l := by
  induction l with
  | nil => simp [getKey] at h
  | cons e rest ih =>
      obtain ⟨k', w⟩ := e
      simp only [getKey] at h
      by_cases h2 : k' = k
      · subst h2
        simp only [if_true] at h
        obtain rfl := (Option.some.injEq _ _).mp (by simpa using h)
        simp
      · simp only [h2, if_false] at h
        exact List.mem_cons_of_mem _ (ih h)

theorem mem_setKey {l : RespDict} {k : String} {v : JVal} {kv : String × JVal}
    (h : kv ∈ setKey l k v) : kv ∈ l ∨ kv = (k, v) := by
  induction l with
  | nil => simpa [setKey] using h
  | cons e rest ih =>
      obtain ⟨k', w⟩ := e
      simp only [setKey] at h
      by_cases h2 : k' = k
      · simp only [h2, if_true, List.mem_cons] at h
        rcases h with rfl | h
        · exact Or.inr rfl
        · exact Or.inl (List.mem_cons_of_mem _ h)
      · simp only [h2, if_false, List.mem_cons] at h
        rcases h with rfl | h
        · exact Or.inl (List.mem_cons_self _ _)
        · rcases ih h with h3 | h3
          · exact Or.inl (List.mem_cons_of_mem _ h3)
          · exact Or.inr h3

theorem getKey_filter {l : RespDict} (h : (l.map Prod.fst).Nodup)
    (p : String × JVal → Bool) (k : String) :
    getKey (l.filter p) k
      = (getKey l k).bind fun v => if p (k, v) then some v else none := by
  induction l with
  | nil => simp [getKey]
  | cons e rest ih =>
      obtain ⟨k', w⟩ := e
      simp only [List.map_cons, List.nodup_cons] at h
      rw [List.filter_cons]
      by_cases h2 : k' = k
      · subst h2
        have hnone : getKey rest k' = none := by
          rw [getKey_eq_none_iff]
          intro kv hkv heq
          exact h.1 (heq ▸ List.mem_map_of_mem Prod.fst hkv)
        by_cases hp : p (k', w) = true
        · simp only [hp, if_true, getKey, Option.some_bind]
        · have hp2 : p (k', w) = false := by
            cases hpv : p (k', w)
            · rfl
            · exact absurd hpv hp
          simp only [hp2, Bool.false_eq_true, if_false, getKey, Option.some_bind]
          rw [ih h.2, hnone]
          simp [hp2]
      · by_cases hp : p (k', w) = true
        · simp only [hp, if_true, getKey, h2, if_false]
          exact ih h.2
        · have hp2 : p (k', w) = false := by
            cases hpv : p (k', w)
            · rfl
            · exact absurd hpv hp
          simp only [hp2, Bool.false_eq_true, if_false, getKey, h2]
          exact ih h.2

theorem keptVal_of_jTruthy {v : JVal} (h : jTruthy v = true) : keptVal v = true := by
  cases v <;> simpa [jTruthy, keptVal] using h

theorem keptVal_of_scalarNE {v : JVal} (h : scalarNE v = true) : keptVal v = true := by
  cases v <;> simpa [scalarNE, keptVal] using h

theorem scalarNE_of_keptVal_isScalar {v : JVal} (h1 : keptVal v = true)
    (h2 : isScalar v = true) : scalarNE v = true := by
  cases v <;> simp_all [keptVal, isScalar, scalarNE]

theorem isScalar_of_scalarNE {v : JVal} (h : scalarNE v = true) :
    isScalar v = true := by
  cases v <;> simp_all [scalarNE, isScalar]

theorem mapM_eq_map {α β : Type} (f : α → Except String β) (g : α → β) :
    ∀ {l : List α}, (∀ x ∈ l, f x = Except.ok (g x)) →
      l.mapM f = Except.ok (l.map g) := by
  intro l
  induction l with
  | nil => intro _; rfl
  | cons a rest ih =>
      intro hall
      rw [List.mapM_cons, hall a (by simp), ih fun b hb => hall b (by simp [hb])]
      rfl

theorem mapM_asObj_map_obj (ls : List RespDict) :
    (ls.map JVal.obj).mapM asObj = Except.ok ls := by
  have h := @mapM_eq_map JVal RespDict asObj
    (fun x => match x with | JVal.obj l => l | _ => [])
    (ls.map JVal.obj)
    (by
      intro x hx
      obtain ⟨l, _, rfl⟩ := List.mem_map.mp hx
      rfl)
  rw [h]
  congr 1
  rw [List.map_map]
  conv_rhs => rw [← List.map_id ls]
  apply List.map_congr_left
  intro a _
  rfl

theorem dumps_obj_length_perm {l l' : RespDict} (h : l.Perm l') :
    (dumps (JVal.obj l)).length = (dumps (JVal.obj l')).length := by
  rw [dumps_obj_length, dumps_obj_length, dumpsObj_length, dumpsObj_length,
    (h.map entryLen).sum_eq, h.length_eq]

theorem sum_length_le_of_forall₂ {xs ys : List JVal}
    (h : List.Forall₂ (fun y x => (dumps y).length ≤ (dumps x).length) ys xs) :
    ((ys.map fun v => (dumps v).length).sum ≤ (xs.map fun v => (dumps v).length).sum)
      ∧ ys.length = xs.length := by
  induction h with
  | nil => simp
  | cons hd tl ih =>
      simp only [List.map_cons, List.sum_cons, List.length_cons]
      exact ⟨Nat.add_le_add hd ih.1, by omega⟩

theorem dumps_arr_le_of_forall₂ {xs ys : List JVal}
    (h : List.Forall₂ (fun y x => (dumps y).length ≤ (dumps x).length) ys xs) :
    (dumps (JVal.arr ys)).length ≤ (dumps (JVal.arr xs)).length := by
  rw [dumps_arr_length, dumps_arr_length, dumpsArr_length, dumpsArr_length]
  obtain ⟨hsum, hlen⟩ := sum_length_le_of_forall₂ h
  omega

theorem fieldLimit_pos (k : String) : 1 ≤ fieldLimit k := by
  unfold fieldLimit
  cases hf : FIELD_LIMITS.find? fun kv => kv.1 = k with
  | none => simp
  | some kv =>
      have hmem := List.mem_of_find?_eq_some hf
      have : 1 ≤ kv.2 := by
        fin_cases hmem <;> simp
      simpa using this

/-- A clipped string value never exceeds the limit (for positive limits). -/
theorem clip_text_str_le_limit {s : String} {limit : Nat} (hl : 1 ≤ limit)
    (hs : s.length ≤ limit) :
    clip_text (JVal.str s) limit = JVal.str s := by
  simp [clip_text, pyStr, hs]

theorem clip_text_str_bound {s : String} {limit : Nat} (hl : 1 ≤ limit) :
    ∃ t, clip_text (JVal.str s) limit = JVal.str t ∧ t.length ≤ limit := by
  by_cases h : s.length ≤ limit
  · exact ⟨s, clip_text_str_le_limit hl h, h⟩
  · refine ⟨String.mk (s.data.take (limit - 1) ++ ['…']), by simp [clip_text, pyStr, h], ?_⟩
    show (s.data.take (limit - 1) ++ ['…']).length ≤ limit
    rw [List.length_append, List.length_take]
    have h1 : (['…'] : List Char).length = 1 := rfl
    have h2 : s.length = s.data.length := rfl
    rw [h1]
    omega

/-- `movieVal` values are fixed by clipping at 70 or above. -/
theorem clip_text_movieVal {v : JVal} (hv : movieVal v) {limit : Nat}
    (hl : 70 ≤ limit) : clip_text v limit = v := by
  rcases hv with ⟨s, rfl, hs⟩ | ⟨n, rfl, _⟩ | rfl
  · exact clip_text_str_le_limit (by omega) (by omega)
  · rfl
  · rfl


/-! ### compactSelect characterization -/

theorem keep_keys_nodup : keep_keys.Nodup := by decide

theorem mini_keys_nodup : mini_keys.Nodup := by decide

theorem compactSelect_hf (item : RespDict) :
    ∀ k e, ((getKey item k).map fun v => (k, clip_text v (fieldLimit k))) = some e
      → e.1 = k := by
  intro k e h
  cases hg : getKey item k with
  | none => simp [hg] at h
  | some v =>
      rw [hg] at h
      simp only [Option.map_some'] at h
      obtain rfl := (Option.some.injEq _ _).mp h
      rfl

theorem getKey_compactSelect (item : RespDict) (k : String) :
    getKey (compactSelect item) k
      = if k ∈ keep_keys then (getKey item k).map fun v => clip_text v (fieldLimit k)
        else none := by
  rw [compactSelect,
    getKey_filterMap_keyed _ (compactSelect_hf item) keep_keys keep_keys_nodup k]
  by_cases hk : k ∈ keep_keys
  · simp only [hk, if_true]
    cases getKey item k <;> simp
  · simp [hk]

theorem nodup_keys_compactSelect (item : RespDict) :
    ((compactSelect item).map Prod.fst).Nodup :=
  nodup_keys_filterMap_keyed _ (compactSelect_hf item) keep_keys_nodup

theorem mem_compactSelect {item : RespDict} {kv : String × JVal}
    (h : kv ∈ compactSelect item) :
    kv.1 ∈ keep_keys ∧ ∃ v, getKey item kv.1 = some v
      ∧ kv.2 = clip_text v (fieldLimit kv.1) := by
  unfold compactSelect at h
  obtain ⟨k, hk, hsome⟩ := List.mem_filterMap.mp h
  cases hg : getKey item k with
  | none => rw [hg] at hsome; simp at hsome
  | some v =>
      rw [hg] at hsome
      simp only [Option.map_some'] at hsome
      obtain rfl := (Option.some.injEq _ _).mp hsome
      exact ⟨hk, v, hg, rfl⟩

/-! ### The movie/title fallbacks -/

theorem withMovieFallback_eq (item out : RespDict) :
    withMovieFallback item out = out ∨
      ∃ u, (getKey item "movie" = some u ∨ getKey item "title" = some u) ∧
        withMovieFallback item out = setKey out "movie" (clip_text u 80) := by
  unfold withMovieFallback
  by_cases h1 : (!oTruthy (getKey out "movie") && oTruthy (getKey item "movie")) = true
  · have hm : ∃ u, getKey item "movie" = some u := by
      cases hg : getKey item "movie"
      · rw [hg] at h1; simp [oTruthy] at h1
      · exact ⟨_, rfl⟩
    obtain ⟨u, hu⟩ := hm
    rw [hu] at h1
    simp only [hu, Option.getD_some, h1, if_true]
    by_cases h2 : (!oTruthy (getKey (setKey out "movie" (clip_text u 80)) "movie")
        && oTruthy (getKey item "title")) = true
    · have ht : ∃ t, getKey item "title" = some t := by
        cases hg : getKey item "title"
        · rw [hg] at h2; simp [oTruthy] at h2
        · exact ⟨_, rfl⟩
      obtain ⟨t, hti⟩ := ht
      rw [hti] at h2
      simp only [hti, Option.getD_some, h2, if_true]
      exact Or.inr ⟨t, Or.inr rfl, setKey_setKey _ _ _ _⟩
    · have h2' : (!oTruthy (getKey (setKey out "movie" (clip_text u 80)) "movie")
          && oTruthy (getKey item "title")) = false := by
        cases hb : (!oTruthy (getKey (setKey out "movie" (clip_text u 80)) "movie")
            && oTruthy (getKey item "title"))
        · rfl
        · exact absurd hb h2
      rw [h2']
      simp only [Bool.false_eq_true, if_false]
      exact Or.inr ⟨u, Or.inl rfl, rfl⟩
  · have h1' : (!oTruthy (getKey out "movie") && oTruthy (getKey item "movie")) = false := by
      cases hb : (!oTruthy (getKey out "movie") && oTruthy (getKey item "movie"))
      · rfl
      · exact absurd hb h1
    rw [h1']
    simp only [Bool.false_eq_true, if_false]
    by_cases h2 : (!oTruthy (getKey out "movie") && oTruthy (getKey item "title")) = true
    · have ht : ∃ t, getKey item "title" = some t := by
        cases hg : getKey item "title"
        · rw [hg] at h2; simp [oTruthy] at h2
        · exact ⟨_, rfl⟩
      obtain ⟨t, hti⟩ := ht
      rw [hti] at h2
      simp only [hti, Option.getD_some, h2, if_true]
      exact Or.inr ⟨t, Or.inr rfl, rfl⟩
    · have h2' : (!oTruthy (getKey out "movie") && oTruthy (getKey item "title")) = false := by
        cases hb : (!oTruthy (getKey out "movie") && oTruthy (getKey item "title"))
        · rfl
        · exact absurd hb h2
      rw [h2']
      simp only [Bool.false_eq_true, if_false]
      exact Or.inl trivial

theorem withMovieFallback_movie_of_title {item out : RespDict}
    (T : oTruthy (getKey item "title") = true)
    (hclip : ∀ v, getKey item "title" = some v → jTruthy (clip_text v 80) = true) :
    oTruthy (getKey (withMovieFallback item out) "movie") = true := by
  obtain ⟨tv, htv⟩ : ∃ tv, getKey item "title" = some tv := by
    cases hg : getKey item "title"
    · rw [hg] at T; simp [oTruthy] at T
    · exact ⟨_, rfl⟩
  unfold withMovieFallback
  by_cases h1 : (!oTruthy (getKey out "movie") && oTruthy (getKey item "movie")) = true
  · simp only [h1, if_true]
    set out1 := setKey out "movie" (clip_text ((getKey item "movie").getD JVal.null) 80)
      with hout1
    by_cases hA : oTruthy (getKey out1 "movie") = true
    · have hcond : (!oTruthy (getKey out1 "movie") && oTruthy (getKey item "title"))
          = false := by
        simp [hA]
      rw [hcond]
      simp only [Bool.false_eq_true, if_false]
      exact hA
    · have hAf : oTruthy (getKey out1 "movie") = false := by
        cases hb : oTruthy (getKey out1 "movie")
        · rfl
        · exact absurd hb hA
      have hcond : (!oTruthy (getKey out1 "movie") && oTruthy (getKey item "title"))
          = true := by
        simp [hAf, T]
      rw [hcond]
      simp only [if_true, htv, Option.getD_some]
      rw [getKey_setKey_self]
      exact hclip tv htv
  · have h1' : (!oTruthy (getKey out "movie") && oTruthy (getKey item "movie"))
        = false := by
      cases hb : (!oTruthy (getKey out "movie") && oTruthy (getKey item "movie"))
      · rfl
      · exact absurd hb h1
    rw [h1']
    simp only [Bool.false_eq_true, if_false]
    by_cases hA : oTruthy (getKey out "movie") = true
    · have hcond : (!oTruthy (getKey out "movie") && oTruthy (getKey item "title"))
          = false := by
        simp [hA]
      rw [hcond]
      simp only [Bool.false_eq_true, if_false]
      exact hA
    · have hAf : oTruthy (getKey out "movie") = false := by
        cases hb : oTruthy (getKey out "movie")
        · rfl
        · exact absurd hb hA
      have hcond : (!oTruthy (getKey out "movie") && oTruthy (getKey item "title"))
          = true := by
        simp [hAf, T]
      rw [hcond]
      simp only [if_true, htv, Option.getD_some]
      rw [getKey_setKey_self]
      exact hclip tv htv

/-! ### compact_item -/

theorem compact_item_eq {item : RespDict}
    (h : ∀ l, getKey item "aliases" ≠ some (JVal.arr l)) :
    compact_item item = Except.ok
      ((withMovieFallback item (compactSelect item)).filter fun kv => keptVal kv.2) := by
  unfold compact_item
  cases hga : getKey item "aliases" with
  | none => rfl
  | some v =>
      cases v with
      | arr l => exact absurd hga (h l)
      | null => rfl
      | bool b => rfl
      | int n => rfl
      | str s => rfl
      | obj l2 => rfl


/-! ### More dict toolkit: value maps, appends, fold-pops -/

theorem getKey_map_values (g : String → JVal → JVal) (l : RespDict) (k : String) :
    getKey (l.map fun kv => (kv.1, g kv.1 kv.2)) k = (getKey l k).map fun v => g k v := by
  induction l with
  | nil => rfl
  | cons e rest ih =>
      obtain ⟨k2, w⟩ := e
      simp only [List.map_cons, getKey]
      by_cases h2 : k2 = k
      · subst h2; simp
      · simp only [h2, if_false]; exact ih

theorem keys_map_values (g : String → JVal → JVal) (l : RespDict) :
    (l.map fun kv => (kv.1, g kv.1 kv.2)).map Prod.fst = l.map Prod.fst := by
  rw [List.map_map]
  apply List.map_congr_left
  intro kv _
  rfl

theorem mem_map_values {g : String → JVal → JVal} {l : RespDict} {kv : String × JVal}
    (h : kv ∈ l.map fun kv => (kv.1, g kv.1 kv.2)) :
    ∃ kw ∈ l, kv = (kw.1, g kw.1 kw.2) := by
  obtain ⟨kw, hkw, heq⟩ := List.mem_map.mp h
  exact ⟨kw, hkw, heq.symm⟩

theorem setKey_of_absent {l : RespDict} {k : String} {v : JVal}
    (h : getKey l k = none) : setKey l k v = l ++ [(k, v)] := by
  induction l with
  | nil => rfl
  | cons e rest ih =>
      obtain ⟨k2, w⟩ := e
      simp only [getKey] at h
      by_cases h2 : k2 = k
      · rw [if_pos h2] at h; exact absurd h (by simp)
      · rw [if_neg h2] at h
        simp only [setKey, h2, if_false, List.cons_append]
        rw [ih h]

theorem getKey_none_of_sublist {l2 l : RespDict} (hs : l2.Sublist l) {k : String}
    (h : getKey l k = none) : getKey l2 k = none := by
  rw [getKey_eq_none_iff] at h ⊢
  intro kv hkv
  exact h kv (hs.subset hkv)

theorem getKey_popKey_self {l : RespDict} (hnd : (l.map Prod.fst).Nodup) (k : String) :
    getKey (popKey l k) k = none := by
  rw [popKey_eq_filter hnd]
  rw [getKey_eq_none_iff]
  intro kv hkv
  have := List.of_mem_filter hkv
  simpa using this

theorem foldl_popKey_sublist (ks : List String) : ∀ l : RespDict,
    (ks.foldl popKey l).Sublist l := by
  induction ks with
  | nil => intro l; exact List.Sublist.refl l
  | cons k0 rest ih =>
      intro l
      exact (ih (popKey l k0)).trans (popKey_sublist l k0)

theorem foldl_popKey_absent : ∀ (ks : List String) (l : RespDict),
    (∀ k ∈ ks, getKey l k = none) → ks.foldl popKey l = l := by
  intro ks
  induction ks with
  | nil => intro l _; rfl
  | cons k0 rest ih =>
      intro l h
      simp only [List.foldl_cons]
      rw [popKey_of_absent (h k0 (by simp))]
      exact ih l fun k2 hk2 => h k2 (by simp [hk2])

theorem getKey_foldl_popKey_ne : ∀ (ks : List String) (l : RespDict) (k : String),
    k ∉ ks → getKey (ks.foldl popKey l) k = getKey l k := by
  intro ks
  induction ks with
  | nil => intro l k _; rfl
  | cons k0 rest ih =>
      intro l k hk
      simp only [List.foldl_cons]
      rw [ih (popKey l k0) k fun h => hk (by simp [h])]
      exact getKey_popKey_ne fun h => hk (by simp [h])

theorem nodup_keys_foldl_popKey : ∀ (ks : List String) {l : RespDict},
    (l.map Prod.fst).Nodup → ((ks.foldl popKey l).map Prod.fst).Nodup := by
  intro ks
  induction ks with
  | nil => intro l h; exact h
  | cons k0 rest ih =>
      intro l h
      simp only [List.foldl_cons]
      exact ih (nodup_keys_popKey h k0)

theorem getKey_foldl_popKey_of_mem : ∀ (ks : List String) {l : RespDict} {k : String},
    k ∈ ks → (l.map Prod.fst).Nodup → getKey (ks.foldl popKey l) k = none := by
  intro ks
  induction ks with
  | nil => intro l k hk _; simp at hk
  | cons k0 rest ih =>
      intro l k hk hnd
      simp only [List.foldl_cons]
      rcases List.mem_cons.mp hk with rfl | hk2
      · exact getKey_none_of_sublist (foldl_popKey_sublist rest (popKey l k))
          (getKey_popKey_self hnd k)
      · exact ih hk2 (nodup_keys_popKey hnd k0)

/-! ### Truthiness and movie-value helpers -/

theorem scalarNE_of_jTruthy {v : JVal} (hs : isScalar v = true)
    (ht : jTruthy v = true) : scalarNE v = true := by
  cases v <;> simp_all [isScalar, jTruthy, scalarNE]

theorem movieVal_jTruthy_or_empty {v : JVal} (h : movieVal v) :
    jTruthy v = true ∨ v = JVal.str "" := by
  rcases h with ⟨s, rfl, _⟩ | ⟨n, rfl, hn⟩ | rfl
  · by_cases hs : s = ""
    · exact Or.inr (by rw [hs])
    · exact Or.inl (by simp [jTruthy, hs])
  · exact Or.inl (by simp [jTruthy, hn])
  · exact Or.inl rfl

theorem keptVal_eq_jTruthy_of_movieVal {v : JVal} (h : movieVal v) :
    keptVal v = jTruthy v := by
  rcases h with ⟨s, rfl, _⟩ | ⟨n, rfl, hn⟩ | rfl
  · rfl
  · simp [keptVal, jTruthy, hn]
  · rfl

theorem movieVal_isScalar {v : JVal} (h : movieVal v) : isScalar v = true := by
  rcases h with ⟨s, rfl, _⟩ | ⟨n, rfl, _⟩ | rfl <;> rfl

/-! ### Sublist and pointwise-clip length bounds for objects -/

theorem sublist_sum_le {l2 l : List Nat} (h : l2.Sublist l) : l2.sum ≤ l.sum := by
  induction h with
  | slnil => exact Nat.le_refl _
  | cons a h ih => simp only [List.sum_cons]; omega
  | cons₂ a h ih => simp only [List.sum_cons]; omega

theorem dumps_obj_sublist_le {l2 l : RespDict} (h : l2.Sublist l) :
    (dumps (JVal.obj l2)).length ≤ (dumps (JVal.obj l)).length := by
  rw [dumps_obj_length, dumps_obj_length, dumpsObj_length, dumpsObj_length]
  have h1 := sublist_sum_le (h.map entryLen)
  have h2 := h.length_le
  omega

theorem dumps_obj_map_clip_le (f : String → Nat) (l : RespDict)
    (h : ∀ kv ∈ l, isScalar kv.2 = true) :
    (dumps (JVal.obj (l.map fun kv => (kv.1, clip_text kv.2 (f kv.1))))).length
      ≤ (dumps (JVal.obj l)).length := by
  rw [dumps_obj_length, dumps_obj_length, dumpsObj_length, dumpsObj_length,
    List.map_map, List.length_map]
  have hsum : (l.map (entryLen ∘ fun kv => (kv.1, clip_text kv.2 (f kv.1)))).sum
      ≤ (l.map entryLen).sum := by
    apply List.sum_le_sum
    intro kv hkv
    show entryLen (kv.1, clip_text kv.2 (f kv.1)) ≤ entryLen kv
    have hd := dumps_clip_text_le (h kv hkv) (f kv.1)
    simp only [entryLen]
    omega
  omega

/-! ### Escaping of plain text -/

theorem escStr_cons (c : Char) (l : List Char) :
    escStr (c :: l) = escChar c ++ escStr l := rfl

theorem escStr_replicate_a (n : Nat) :
    escStr (List.replicate n 'a') = List.replicate n 'a' := by
  induction n with
  | zero => rfl
  | succ n ih =>
      rw [List.replicate_succ, escStr_cons, ih]
      have h1 : escChar 'a' = ['a'] := by decide
      rw [h1]
      rfl


/-! ### Tier-0 compactor: selection size and fallback structure -/

theorem compactSelect_eq_keyed (l : RespDict) :
    compactSelect l = keep_keys.filterMap fun k =>
      (getKey l k).bind fun v =>
        if (fun (_ : String) (_ : JVal) => true) k v = true
        then some (k, clip_text v (fieldLimit k)) else none := by
  unfold compactSelect
  congr 1
  funext k
  cases getKey l k with
  | none => rfl
  | some v => rfl

theorem dumps_obj_compactSelect_le {l : RespDict} (hnd : (l.map Prod.fst).Nodup)
    (hsc : ∀ kv ∈ l, isScalar kv.2 = true) :
    (dumps (JVal.obj (compactSelect l))).length ≤ (dumps (JVal.obj l)).length := by
  have hperm := keyed_filterMap_perm (fun _ _ => true)
    (fun k v => clip_text v (fieldLimit k)) keep_keys l keep_keys_nodup hnd
  have heq : (dumps (JVal.obj (compactSelect l))).length
      = (dumps (JVal.obj ((l.filter fun kv => decide (kv.1 ∈ keep_keys)
          && (fun (_ : String) (_ : JVal) => true) kv.1 kv.2).map
          fun kv => (kv.1, clip_text kv.2 (fieldLimit kv.1))))).length := by
    rw [compactSelect_eq_keyed l]
    exact dumps_obj_length_perm hperm
  rw [heq]
  exact le_trans
    (dumps_obj_map_clip_le fieldLimit _ fun kv hkv => hsc kv (List.mem_of_mem_filter hkv))
    (dumps_obj_sublist_le (List.filter_sublist l))

theorem withMovieFallback_id {item out : RespDict}
    (hm : (!oTruthy (getKey out "movie") && oTruthy (getKey item "movie")) = false)
    (ht : (!oTruthy (getKey out "movie") && oTruthy (getKey item "title")) = false) :
    withMovieFallback item out = out := by
  unfold withMovieFallback
  rw [hm]
  simp only [Bool.false_eq_true, if_false]
  rw [ht]
  simp only [Bool.false_eq_true, if_false]

theorem nodup_keys_withMovieFallback {item out : RespDict}
    (h : (out.map Prod.fst).Nodup) :
    ((withMovieFallback item out).map Prod.fst).Nodup := by
  rcases withMovieFallback_eq item out with heq | ⟨u, _, heq⟩
  · rw [heq]; exact h
  · rw [heq]; exact nodup_keys_setKey h _ _

theorem mem_withMovieFallback {item out : RespDict} {kv : String × JVal}
    (h : kv ∈ withMovieFallback item out) :
    kv ∈ out ∨ ∃ u, (getKey item "movie" = some u ∨ getKey item "title" = some u)
      ∧ kv = ("movie", clip_text u 80) := by
  rcases withMovieFallback_eq item out with heq | ⟨u, hu, heq⟩
  · rw [heq] at h; exact Or.inl h
  · rw [heq] at h
    rcases mem_setKey h with h2 | h2
    · exact Or.inl h2
    · exact Or.inr ⟨u, hu, h2⟩

theorem getKey_withMovieFallback_ne {item out : RespDict} {k : String}
    (hk : k ≠ "movie") :
    getKey (withMovieFallback item out) k = getKey out k := by
  rcases withMovieFallback_eq item out with heq | ⟨u, _, heq⟩
  · rw [heq]
  · rw [heq]; exact getKey_setKey_ne out _ hk

/-- `_compact_item` on any scalar-valued dict succeeds and yields a tier-0
shaped item; string-valued inputs give string-valued outputs. -/
theorem compact_item_P0 {l : RespDict} (hsc : ∀ kv ∈ l, isScalar kv.2 = true) :
    ∃ out, compact_item l = Except.ok out ∧ P0item out ∧
      ((∀ kv ∈ l, isStrVal kv.2 = true) → ∀ kv ∈ out, isStrVal kv.2 = true) := by
  have halias : ∀ l2, getKey l "aliases" ≠ some (JVal.arr l2) := by
    intro l2 hga
    have := hsc _ (getKey_some_mem hga)
    simp [isScalar] at this
  have hnw : ((withMovieFallback l (compactSelect l)).map Prod.fst).Nodup :=
    nodup_keys_withMovieFallback (nodup_keys_compactSelect l)
  refine ⟨_, compact_item_eq halias, ⟨?_, ?_, ?_, ?_⟩, ?_⟩
  · exact hnw.sublist ((List.filter_sublist _).map Prod.fst)
  · intro kv hkv
    rcases mem_withMovieFallback (List.mem_of_mem_filter hkv) with h2 | ⟨u, _, h2⟩
    · exact (mem_compactSelect h2).1
    · rw [h2]
      show ("movie" : String) ∈ keep_keys
      decide
  · intro kv hkv
    have hkept : keptVal kv.2 = true := by
      have := List.of_mem_filter hkv
      simpa using this
    have hscal : isScalar kv.2 = true := by
      rcases mem_withMovieFallback (List.mem_of_mem_filter hkv) with h2 | ⟨u, _, h2⟩
      · obtain ⟨_, v, _, hv⟩ := mem_compactSelect h2
        rw [hv]; exact isScalar_clip_text v _
      · rw [h2]; exact isScalar_clip_text u _
    exact scalarNE_of_keptVal_isScalar hkept hscal
  · intro htr
    have hget := getKey_filter hnw (fun kv => keptVal kv.2) "title"
    rw [hget] at htr
    cases hwt : getKey (withMovieFallback l (compactSelect l)) "title" with
    | none => rw [hwt] at htr; simp [oTruthy] at htr
    | some tv =>
        rw [hwt] at htr
        have htv : jTruthy tv = true := by
          by_cases hkt : keptVal ("title", tv).2 = true
          · simp only [Option.some_bind, hkt, if_true, oTruthy] at htr
            exact htr
          · have : keptVal ("title", tv).2 = false := by
              cases hb : keptVal ("title", tv).2
              · rfl
              · exact absurd hb hkt
            simp only [Option.some_bind, this, Bool.false_eq_true, if_false,
              oTruthy] at htr
        have hwt2 : getKey (compactSelect l) "title" = some tv := by
          rw [← @getKey_withMovieFallback_ne l (compactSelect l) "title" (by decide)]
          exact hwt
        rw [getKey_compactSelect, if_pos (show "title" ∈ keep_keys by decide)] at hwt2
        cases hgt : getKey l "title" with
        | none => rw [hgt] at hwt2; simp at hwt2
        | some t0 =>
            rw [hgt] at hwt2
            simp only [Option.map_some'] at hwt2
            obtain rfl := (Option.some.injEq _ _).mp hwt2
            have ht0s : isScalar t0 = true := hsc _ (getKey_some_mem hgt)
            have ht0 : jTruthy t0 = true := by
              rw [jTruthy_clip_text ht0s _] at htv
              exact htv
            have hT : oTruthy (getKey l "title") = true := by
              rw [hgt]; simpa [oTruthy] using ht0
            have hclip : ∀ v, getKey l "title" = some v
                → jTruthy (clip_text v 80) = true := by
              intro v hv
              rw [hgt] at hv
              obtain rfl := (Option.some.injEq _ _).mp hv
              rw [jTruthy_clip_text ht0s 80]
              exact ht0
            have hmv := @withMovieFallback_movie_of_title l (compactSelect l) hT hclip
            cases hwm : getKey (withMovieFallback l (compactSelect l)) "movie" with
            | none => rw [hwm] at hmv; simp [oTruthy] at hmv
            | some mv =>
                rw [hwm] at hmv
                simp only [oTruthy] at hmv
                rw [getKey_filter hnw (fun kv => keptVal kv.2) "movie", hwm]
                simp only [Option.some_bind,
                  show keptVal ("movie", mv).2 = true from keptVal_of_jTruthy hmv,
                  if_true, oTruthy]
                exact hmv
  · intro hstr kv hkv
    rcases mem_withMovieFallback (List.mem_of_mem_filter hkv) with h2 | ⟨u, hu, h2⟩
    · obtain ⟨_, v, hv1, hv2⟩ := mem_compactSelect h2
      rw [hv2]
      exact isStrVal_clip_text (hstr _ (getKey_some_mem hv1)) _
    · rw [h2]
      rcases hu with hu | hu
      · exact isStrVal_clip_text (hstr _ (getKey_some_mem hu)) _
      · exact isStrVal_clip_text (hstr _ (getKey_some_mem hu)) _


/-- On a tier-0 shaped item both fallbacks are dead and `_compact_item`
reduces to the whitelist selection plus the emptiness filter; the
serialization never grows. -/
theorem compact_item_shrink {l : RespDict} (hP : P0item l) :
    ∃ out, compact_item l = Except.ok out ∧ P0item out ∧
      (dumps (JVal.obj out)).length ≤ (dumps (JVal.obj l)).length := by
  obtain ⟨hnd, hkeys, hne, hmc⟩ := hP
  have hsc : ∀ kv ∈ l, isScalar kv.2 = true :=
    fun kv hkv => isScalar_of_scalarNE (hne kv hkv)
  have halias : ∀ l2, getKey l "aliases" ≠ some (JVal.arr l2) := by
    intro l2 hga
    have := hsc _ (getKey_some_mem hga)
    simp [isScalar] at this
  have hcm : (!oTruthy (getKey (compactSelect l) "movie")
      && oTruthy (getKey l "movie")) = false := by
    cases hgm : getKey l "movie" with
    | none => simp [oTruthy]
    | some mv =>
        rw [getKey_compactSelect, if_pos (show ("movie" : String) ∈ keep_keys by decide),
          hgm]
        simp only [Option.map_some', oTruthy]
        rw [jTruthy_clip_text (isScalar_of_scalarNE (hne _ (getKey_some_mem hgm))) _]
        cases jTruthy mv <;> rfl
  have hct : (!oTruthy (getKey (compactSelect l) "movie")
      && oTruthy (getKey l "title")) = false := by
    cases htr : oTruthy (getKey l "title") with
    | false => simp [htr]
    | true =>
        have hmv := hmc htr
        cases hgm : getKey l "movie" with
        | none => rw [hgm] at hmv; simp [oTruthy] at hmv
        | some mv =>
            rw [getKey_compactSelect, if_pos (show ("movie" : String) ∈ keep_keys by decide),
              hgm]
            simp only [Option.map_some', oTruthy]
            rw [jTruthy_clip_text (isScalar_of_scalarNE (hne _ (getKey_some_mem hgm))) _]
            rw [hgm] at hmv
            simp only [oTruthy] at hmv
            simp [hmv]
  have hwmf : withMovieFallback l (compactSelect l) = compactSelect l :=
    withMovieFallback_id hcm hct
  obtain ⟨out0, heq0, hP0, _⟩ := compact_item_P0 hsc
  have heq1 : compact_item l
      = Except.ok ((compactSelect l).filter fun kv => keptVal kv.2) := by
    rw [compact_item_eq halias, hwmf]
  have hout : out0 = (compactSelect l).filter fun kv => keptVal kv.2 := by
    rw [heq0] at heq1
    exact Except.ok.inj heq1
  refine ⟨out0, heq0, hP0, ?_⟩
  rw [hout]
  exact le_trans (dumps_obj_sublist_le (List.filter_sublist _))
    (dumps_obj_compactSelect_le hnd hsc)

/-- `_compact_item` reproduces a last-resort movie singleton, dropping it
entirely when the value is falsy. -/
theorem compact_item_movie_singleton {v : JVal} (hv : movieVal v) :
    compact_item [("movie", v)] = Except.ok
      (if jTruthy v = true then [("movie", v)] else []) := by
  have hnone : getKey [("movie", v)] "aliases" = none := by
    simp only [getKey]
    rw [if_neg (by decide)]
  have halias : ∀ l2, getKey [("movie", v)] "aliases" ≠ some (JVal.arr l2) := by
    intro l2 h
    rw [hnone] at h
    simp at h
  rw [compact_item_eq halias]
  have hcs : compactSelect [("movie", v)] = [("movie", clip_text v 80)] := by
    simp [compactSelect, keep_keys, getKey, fieldLimit, FIELD_LIMITS]
  rw [hcs, clip_text_movieVal hv (by norm_num)]
  have hg : getKey [("movie", v)] "movie" = some v := by
    simp [getKey]
  have h1 : (!oTruthy (getKey [("movie", v)] "movie")
      && oTruthy (getKey [("movie", v)] "movie")) = false := by
    rw [hg]
    simp only [oTruthy]
    cases jTruthy v <;> rfl
  have h2 : (!oTruthy (getKey [("movie", v)] "movie")
      && oTruthy (getKey [("movie", v)] "title")) = false := by
    have hgt : getKey [("movie", v)] "title" = none := by
      simp only [getKey]
      rw [if_neg (by decide)]
    rw [hgt]
    simp [oTruthy]
  rw [withMovieFallback_id h1 h2]
  have hf : ([("movie", v)].filter fun kv => keptVal kv.2)
      = if jTruthy v = true then [("movie", v)] else [] := by
    rw [List.filter_cons]
    rw [show keptVal ("movie", v).2 = jTruthy v from keptVal_eq_jTruthy_of_movieVal hv]
    cases hjv : jTruthy v <;> simp [hjv]
  rw [hf]


/-! ### The second and third tiers itemwise -/

theorem mini_keys_subset_keep : ∀ k ∈ mini_keys, k ∈ keep_keys := by decide

theorem keys_map_of_fst {l : RespDict} (f : String × JVal → String × JVal)
    (h : ∀ kv, (f kv).1 = kv.1) : (l.map f).map Prod.fst = l.map Prod.fst := by
  rw [List.map_map]
  apply List.map_congr_left
  intro kv _
  exact h kv

theorem nodup_keys_map_of_fst {l : RespDict} (f : String × JVal → String × JVal)
    (h : ∀ kv, (f kv).1 = kv.1) (hnd : (l.map Prod.fst).Nodup) :
    ((l.map f).map Prod.fst).Nodup := by
  rw [keys_map_of_fst f h]
  exact hnd

theorem miniSelect_hf (it : RespDict) :
    ∀ k e, ((getKey it k).bind fun v =>
      if jTruthy v = true then some (k, v) else none) = some e → e.1 = k := by
  intro k e h
  cases hg : getKey it k with
  | none => rw [hg] at h; simp at h
  | some v =>
      rw [hg] at h
      simp only [Option.some_bind] at h
      by_cases hj : jTruthy v = true
      · rw [if_pos hj] at h
        obtain rfl := (Option.some.injEq _ _).mp h
        rfl
      · rw [if_neg hj] at h
        simp at h

theorem nodup_keys_miniSelect (it : RespDict) :
    ((miniSelect it).map Prod.fst).Nodup :=
  nodup_keys_filterMap_keyed _ (miniSelect_hf it) mini_keys_nodup

theorem mem_miniSelect {it : RespDict} {kv : String × JVal}
    (h : kv ∈ miniSelect it) :
    kv.1 ∈ mini_keys ∧ getKey it kv.1 = some kv.2 ∧ jTruthy kv.2 = true := by
  unfold miniSelect at h
  obtain ⟨k, hk, hsome⟩ := List.mem_filterMap.mp h
  cases hg : getKey it k with
  | none => rw [hg] at hsome; simp at hsome
  | some v =>
      rw [hg] at hsome
      simp only [Option.some_bind] at hsome
      by_cases hj : jTruthy v = true
      · rw [if_pos hj] at hsome
        obtain rfl := (Option.some.injEq _ _).mp hsome
        exact ⟨hk, hg, hj⟩
      · rw [if_neg hj] at hsome
        simp at hsome

/-- The second-tier item stays tier-0 shaped and additionally every kept
value is truthy. -/
theorem mini_item_P1 {it : RespDict} (hP : P0item it) :
    P0item (mini_item it) ∧ ∀ kv ∈ mini_item it, jTruthy kv.2 = true := by
  obtain ⟨hnd, hkeys, hne, hmc⟩ := hP
  have hm0nd : ((miniSelect it).map Prod.fst).Nodup := nodup_keys_miniSelect it
  have hdef : mini_item it
      = (if (!oTruthy (getKey (miniSelect it) "movie")
            && oTruthy (getKey it "title")) = true
          then setKey (miniSelect it) "movie" ((getKey it "title").getD JVal.null)
          else miniSelect it).map fun kv =>
          (kv.1, clip_text kv.2
            (if kv.1 = "vibe_point" || kv.1 = "reason" then 120 else 80)) := rfl
  have hm1nd : (((if (!oTruthy (getKey (miniSelect it) "movie")
        && oTruthy (getKey it "title")) = true
      then setKey (miniSelect it) "movie" ((getKey it "title").getD JVal.null)
      else miniSelect it)).map Prod.fst).Nodup := by
    split
    · exact nodup_keys_setKey hm0nd _ _
    · exact hm0nd
  have hm1mem : ∀ kv ∈ (if (!oTruthy (getKey (miniSelect it) "movie")
        && oTruthy (getKey it "title")) = true
      then setKey (miniSelect it) "movie" ((getKey it "title").getD JVal.null)
      else miniSelect it),
      (kv.1 ∈ mini_keys ∨ kv.1 = "movie")
        ∧ scalarNE kv.2 = true ∧ jTruthy kv.2 = true ∧ isScalar kv.2 = true := by
    intro kv hkv
    by_cases hc : (!oTruthy (getKey (miniSelect it) "movie")
        && oTruthy (getKey it "title")) = true
    · rw [if_pos hc] at hkv
      rcases mem_setKey hkv with h2 | h2
      · obtain ⟨hk, hg, hj⟩ := mem_miniSelect h2
        have hsNE := hne _ (getKey_some_mem hg)
        exact ⟨Or.inl hk, hsNE, hj, isScalar_of_scalarNE hsNE⟩
      · have htr : oTruthy (getKey it "title") = true := by
          cases hx : oTruthy (getKey it "title")
          · rw [hx] at hc; simp at hc
          · rfl
        cases hgt : getKey it "title" with
        | none => rw [hgt] at htr; simp [oTruthy] at htr
        | some tv =>
            rw [hgt] at htr
            simp only [oTruthy] at htr
            have hsNE := hne _ (getKey_some_mem hgt)
            rw [h2, hgt]
            simp only [Option.getD_some]
            exact ⟨Or.inr trivial, hsNE, htr, isScalar_of_scalarNE hsNE⟩
    · rw [if_neg hc] at hkv
      obtain ⟨hk, hg, hj⟩ := mem_miniSelect hkv
      have hsNE := hne _ (getKey_some_mem hg)
      exact ⟨Or.inl hk, hsNE, hj, isScalar_of_scalarNE hsNE⟩
  refine ⟨⟨?_, ?_, ?_, ?_⟩, ?_⟩
  · rw [hdef]
    exact nodup_keys_map_of_fst _ (fun kv => rfl) hm1nd
  · intro kv hkv
    rw [hdef] at hkv
    obtain ⟨kw, hkw, rfl⟩ := List.mem_map.mp hkv
    obtain ⟨hk, _, _, _⟩ := hm1mem kw hkw
    show kw.1 ∈ keep_keys
    rcases hk with hk | hk
    · exact mini_keys_subset_keep _ hk
    · rw [hk]; decide
  · intro kv hkv
    rw [hdef] at hkv
    obtain ⟨kw, hkw, rfl⟩ := List.mem_map.mp hkv
    obtain ⟨_, hsNE, _, _⟩ := hm1mem kw hkw
    show scalarNE (clip_text kw.2 _) = true
    exact scalarNE_clip_text hsNE _
  · intro htr
    have hnone : getKey (mini_item it) "title" = none := by
      rw [getKey_eq_none_iff]
      intro kv hkv
      rw [hdef] at hkv
      obtain ⟨kw, hkw, rfl⟩ := List.mem_map.mp hkv
      obtain ⟨hk, _, _, _⟩ := hm1mem kw hkw
      show kw.1 ≠ "title"
      rcases hk with hk | hk
      · intro heq
        rw [heq] at hk
        exact absurd hk (by decide)
      · rw [hk]; decide
    rw [hnone] at htr
    simp [oTruthy] at htr
  · intro kv hkv
    rw [hdef] at hkv
    obtain ⟨kw, hkw, rfl⟩ := List.mem_map.mp hkv
    obtain ⟨_, _, hj, hs⟩ := hm1mem kw hkw
    show jTruthy (clip_text kw.2 _) = true
    rw [jTruthy_clip_text hs _]
    exact hj

/-- The third-tier clip keeps the second tier's shape and truthiness. -/
theorem tier2_item_P1 {it : RespDict} (hP : P0item it)
    (hj : ∀ kv ∈ it, jTruthy kv.2 = true) :
    P0item (tier2_item it) ∧ ∀ kv ∈ tier2_item it, jTruthy kv.2 = true := by
  obtain ⟨hnd, hkeys, hne, hmc⟩ := hP
  have hsc : ∀ kv ∈ it, isScalar kv.2 = true :=
    fun kv h => isScalar_of_scalarNE (hne kv h)
  refine ⟨⟨?_, ?_, ?_, ?_⟩, ?_⟩
  · unfold tier2_item
    exact nodup_keys_map_of_fst _ (fun kv => rfl) hnd
  · intro kv hkv
    unfold tier2_item at hkv
    obtain ⟨kw, hkw, rfl⟩ := List.mem_map.mp hkv
    show kw.1 ∈ keep_keys
    exact hkeys kw hkw
  · intro kv hkv
    unfold tier2_item at hkv
    obtain ⟨kw, hkw, rfl⟩ := List.mem_map.mp hkv
    show scalarNE (clip_text kw.2 _) = true
    exact scalarNE_clip_text (hne kw hkw) _
  · intro htr
    unfold tier2_item at htr ⊢
    rw [getKey_map_values (fun k v => clip_text v (if k = "movie" then 70 else 60))
      it "title"] at htr
    rw [getKey_map_values (fun k v => clip_text v (if k = "movie" then 70 else 60))
      it "movie"]
    cases hgt : getKey it "title" with
    | none => rw [hgt] at htr; simp [oTruthy] at htr
    | some tv =>
        rw [hgt] at htr
        simp only [Option.map_some', oTruthy] at htr
        rw [jTruthy_clip_text (hsc _ (getKey_some_mem hgt)) _] at htr
        have hmt : oTruthy (getKey it "title") = true := by
          rw [hgt]; simpa [oTruthy] using htr
        have hmv := hmc hmt
        cases hgm : getKey it "movie" with
        | none => rw [hgm] at hmv; simp [oTruthy] at hmv
        | some mv =>
            rw [hgm] at hmv
            simp only [oTruthy] at hmv
            simp only [Option.map_some', oTruthy]
            rw [jTruthy_clip_text (hsc _ (getKey_some_mem hgm)) _]
            exact hmv
  · intro kv hkv
    unfold tier2_item at hkv
    obtain ⟨kw, hkw, rfl⟩ := List.mem_map.mp hkv
    show jTruthy (clip_text kw.2 _) = true
    rw [jTruthy_clip_text (hsc kw hkw) _]
    exact hj kw hkw

/-! ### The second and third tiers on last-resort singletons -/

theorem mini_item_nil : mini_item [] = [] := rfl

theorem tier2_item_nil : tier2_item [] = [] := rfl

theorem mini_item_movie_singleton {v : JVal} (hv : movieVal v)
    (hj : jTruthy v = true) : mini_item [("movie", v)] = [("movie", v)] := by
  have hms : miniSelect [("movie", v)] = [("movie", v)] := by
    unfold miniSelect mini_keys
    simp [getKey, hj]
  show (if (!oTruthy (getKey (miniSelect [("movie", v)]) "movie")
        && oTruthy (getKey [("movie", v)] "title")) = true
      then setKey (miniSelect [("movie", v)]) "movie"
        ((getKey [("movie", v)] "title").getD JVal.null)
      else miniSelect [("movie", v)]).map (fun kv =>
        (kv.1, clip_text kv.2
          (if kv.1 = "vibe_point" || kv.1 = "reason" then 120 else 80)))
    = [("movie", v)]
  rw [hms]
  have hgt : getKey [("movie", v)] "title" = none := by
    simp only [getKey]
    rw [if_neg (by decide)]
  have hc : (!oTruthy (getKey [("movie", v)] "movie")
      && oTruthy (getKey [("movie", v)] "title")) = false := by
    rw [hgt]
    simp [oTruthy]
  rw [hc]
  simp only [Bool.false_eq_true, if_false]
  have h80 : clip_text v 80 = v := clip_text_movieVal hv (by norm_num)
  simp [h80]

theorem tier2_item_movie_singleton {v : JVal} (hv : movieVal v) :
    tier2_item [("movie", v)] = [("movie", v)] := by
  have h70 : clip_text v 70 = v := clip_text_movieVal hv (by norm_num)
  simp [tier2_item, h70]


/-! ### Pass-level equations for the budget tiers -/

theorem forall₂_map_self {α β : Type} (r : β → α → Prop) (f : α → β) :
    ∀ {l : List α}, (∀ x ∈ l, r (f x) x) → List.Forall₂ r (l.map f) l := by
  intro l
  induction l with
  | nil => intro _; exact List.Forall₂.nil
  | cons a rest ih =>
      intro h
      exact List.Forall₂.cons (h a (by simp)) (ih fun x hx => h x (by simp [hx]))

theorem compactPass_of_items {resp : RespDict} {xs : List JVal}
    (hgi : getKey resp "items" = some (JVal.arr xs))
    (g : JVal → RespDict)
    (hall : ∀ x ∈ xs, compact_item (asItemDict x) = Except.ok (g x)) :
    compactPass resp = Except.ok
      (setKey resp "items" (JVal.arr ((xs.map g).map JVal.obj))) := by
  unfold compactPass
  rw [hgi]
  show (do
    let ys ← xs.mapM fun x => compact_item (asItemDict x)
    Except.ok (setKey resp "items" (JVal.arr (ys.map JVal.obj)))) = _
  rw [mapM_eq_map _ g hall, except_bind_ok]

theorem compactPass_of_absent {resp : RespDict}
    (hgi : getKey resp "items" = none) : compactPass resp = Except.ok resp := by
  unfold compactPass
  rw [hgi]

theorem compactPass_of_other {resp : RespDict} {v : JVal}
    (hgi : getKey resp "items" = some v) (hv : ∀ l, v ≠ JVal.arr l) :
    compactPass resp = Except.ok resp := by
  unfold compactPass
  rw [hgi]
  cases v with
  | arr l => exact absurd rfl (hv l)
  | null => rfl
  | bool b => rfl
  | int n => rfl
  | str s => rfl
  | obj l => rfl

theorem miniPass_of_objs {resp : RespDict} {ys : List RespDict}
    (hgi : getKey resp "items" = some (JVal.arr (ys.map JVal.obj))) :
    miniPass resp = Except.ok (setKey resp "items"
      (JVal.arr (ys.map fun it => JVal.obj (mini_item it)))) := by
  unfold miniPass
  rw [hgi]
  show (do
    let items ← (ys.map JVal.obj).mapM asObj
    Except.ok (setKey resp "items"
      (JVal.arr (items.map fun it => JVal.obj (mini_item it))))) = _
  rw [mapM_asObj_map_obj, except_bind_ok]

theorem miniPass_of_absent {resp : RespDict}
    (hgi : getKey resp "items" = none) :
    miniPass resp = Except.ok (setKey resp "items" (JVal.arr [])) := by
  unfold miniPass
  rw [hgi]

theorem miniPass_of_empty_str {resp : RespDict}
    (hgi : getKey resp "items" = some (JVal.str "")) :
    miniPass resp = Except.ok (setKey resp "items" (JVal.arr [])) := by
  unfold miniPass
  rw [hgi]
  show (if ("" : String) = "" then Except.ok (setKey resp "items" (JVal.arr []))
    else Except.error "AttributeError: get") = _
  rw [if_pos rfl]

theorem miniPass_of_empty_obj {resp : RespDict}
    (hgi : getKey resp "items" = some (JVal.obj [])) :
    miniPass resp = Except.ok (setKey resp "items" (JVal.arr [])) := by
  unfold miniPass
  rw [hgi]
  rfl

theorem miniPass_err_str {resp : RespDict} {s : String}
    (hgi : getKey resp "items" = some (JVal.str s)) (hs : ¬ s = "") :
    miniPass resp = Except.error "AttributeError: get" := by
  unfold miniPass
  rw [hgi]
  show (if s = "" then Except.ok (setKey resp "items" (JVal.arr []))
    else Except.error "AttributeError: get") = _
  rw [if_neg hs]

theorem miniPass_err_obj {resp : RespDict} {l : RespDict}
    (hgi : getKey resp "items" = some (JVal.obj l)) (hl : ¬ l.isEmpty = true) :
    miniPass resp = Except.error "AttributeError: get" := by
  unfold miniPass
  rw [hgi]
  show (if l.isEmpty = true then Except.ok (setKey resp "items" (JVal.arr []))
    else Except.error "AttributeError: get") = _
  rw [if_neg hl]

theorem miniPass_err_null {resp : RespDict}
    (hgi : getKey resp "items" = some JVal.null) :
    miniPass resp = Except.error "TypeError: not iterable" := by
  unfold miniPass
  rw [hgi]

theorem miniPass_err_bool {resp : RespDict} {b : Bool}
    (hgi : getKey resp "items" = some (JVal.bool b)) :
    miniPass resp = Except.error "TypeError: not iterable" := by
  unfold miniPass
  rw [hgi]

theorem miniPass_err_int {resp : RespDict} {n : Int}
    (hgi : getKey resp "items" = some (JVal.int n)) :
    miniPass resp = Except.error "TypeError: not iterable" := by
  unfold miniPass
  rw [hgi]

theorem tier2Pass_of_objs {resp : RespDict} {ys : List RespDict}
    (hgi : getKey resp "items" = some (JVal.arr (ys.map JVal.obj))) :
    tier2Pass resp = Except.ok (noisy_keys.foldl popKey (setKey resp "items"
      (JVal.arr (ys.map fun it => JVal.obj (tier2_item it))))) := by
  unfold tier2Pass
  rw [hgi]
  show (do
    let items ← (ys.map JVal.obj).mapM asObj
    let y ← Except.ok (setKey resp "items"
      (JVal.arr (items.map fun it => JVal.obj (tier2_item it))))
    Except.ok (noisy_keys.foldl popKey y)) = _
  rw [mapM_asObj_map_obj, except_bind_ok, except_bind_ok]

theorem finalPass_of_objs {resp : RespDict} {ys : List RespDict}
    (hgi : getKey resp "items" = some (JVal.arr (ys.map JVal.obj))) :
    finalPass resp = Except.ok (setKey (setKey resp "items" (JVal.arr
      ((ys.map fun it =>
        JVal.obj [("movie", clip_text ((getKey it "movie").getD (JVal.str "")) 70)]).take
        10))) "note" (JVal.str noteText)) := by
  unfold finalPass
  rw [hgi]
  show (do
    let items ← (ys.map JVal.obj).mapM asObj
    let y ← Except.ok (setKey resp "items" (JVal.arr
      ((items.map fun it =>
        JVal.obj [("movie", clip_text ((getKey it "movie").getD (JVal.str "")) 70)]).take
        10)))
    Except.ok (setKey y "note" (JVal.str noteText))) = _
  rw [mapM_asObj_map_obj, except_bind_ok, except_bind_ok]


/-! ### Walking the enforcer over well-shaped responses -/

theorem noisy_ne_items : ∀ k ∈ noisy_keys, k ≠ "items" := by decide

theorem noisy_ne_note : ∀ k ∈ noisy_keys, k ≠ "note" := by decide

theorem items_not_noisy : ("items" : String) ∉ noisy_keys := by decide

/-- A within-budget tier-0 shaped response passes the enforcer with a result
that serializes no larger. -/
theorem enforce_shapeA_le {r1 : RespDict} (hA : ShapeA r1)
    (hle : json_len r1 ≤ MAX_RESPONSE_CHARS) :
    ∃ r2, enforce_response_budget r1 = Except.ok r2
      ∧ json_len r2 ≤ json_len r1 := by
  cases hgi : getKey r1 "items" with
  | none =>
      refine ⟨r1, ?_, Nat.le_refl _⟩
      unfold enforce_response_budget
      rw [compactPass_of_absent hgi, except_bind_ok, if_pos hle]
  | some v =>
      cases v with
      | arr xs =>
          have hA2 : ∀ x ∈ xs, ∃ l, x = JVal.obj l ∧ P0item l := by
            have h2 := hA
            unfold ShapeA at h2
            rw [hgi] at h2
            exact h2
          have hall : ∀ x ∈ xs, compact_item (asItemDict x)
              = Except.ok ((compact_item (asItemDict x)).toOption.getD []) := by
            intro x hx
            obtain ⟨l, rfl, hP⟩ := hA2 x hx
            obtain ⟨out, heq, _, _⟩ := compact_item_shrink hP
            rw [show asItemDict (JVal.obj l) = l from rfl, heq]
            rfl
          have hc := compactPass_of_items hgi _ hall
          have hsize : json_len (setKey r1 "items" (JVal.arr
              ((xs.map fun x => (compact_item (asItemDict x)).toOption.getD []).map
                JVal.obj))) ≤ json_len r1 := by
            apply json_len_setKey_le hgi
            rw [List.map_map]
            apply dumps_arr_le_of_forall₂
            apply forall₂_map_self
            intro x hx
            obtain ⟨l, rfl, hP⟩ := hA2 x hx
            obtain ⟨out, heq, _, hlen⟩ := compact_item_shrink hP
            show (dumps (JVal.obj ((compact_item
              (asItemDict (JVal.obj l))).toOption.getD []))).length
              ≤ (dumps (JVal.obj l)).length
            rw [show asItemDict (JVal.obj l) = l from rfl, heq]
            exact hlen
          refine ⟨_, ?_, hsize⟩
          unfold enforce_response_budget
          rw [hc, except_bind_ok, if_pos (le_trans hsize hle)]
      | null =>
          refine ⟨r1, ?_, Nat.le_refl _⟩
          unfold enforce_response_budget
          rw [compactPass_of_other hgi fun l h => JVal.noConfusion h,
            except_bind_ok, if_pos hle]
      | bool b =>
          refine ⟨r1, ?_, Nat.le_refl _⟩
          unfold enforce_response_budget
          rw [compactPass_of_other hgi fun l h => JVal.noConfusion h,
            except_bind_ok, if_pos hle]
      | int n =>
          refine ⟨r1, ?_, Nat.le_refl _⟩
          unfold enforce_response_budget
          rw [compactPass_of_other hgi fun l h => JVal.noConfusion h,
            except_bind_ok, if_pos hle]
      | str s =>
          refine ⟨r1, ?_, Nat.le_refl _⟩
          unfold enforce_response_budget
          rw [compactPass_of_other hgi fun l h => JVal.noConfusion h,
            except_bind_ok, if_pos hle]
      | obj l =>
          refine ⟨r1, ?_, Nat.le_refl _⟩
          unfold enforce_response_budget
          rw [compactPass_of_other hgi fun l2 h => JVal.noConfusion h,
            except_bind_ok, if_pos hle]

/-- The enforcer reproduces a last-resort response: every tier fixes it and
the last tier rebuilds it verbatim, so a second application cannot grow it. -/
theorem enforce_shapeFinal_fix {r1 : RespDict} (hF : ShapeFinal r1) :
    ∃ r2, enforce_response_budget r1 = Except.ok r2
      ∧ json_len r2 ≤ json_len r1 := by
  obtain ⟨⟨xs, hgi, hlen10, hxv⟩, hnoisy, hnote⟩ := hF
  have hall : ∀ x ∈ xs, compact_item (asItemDict x)
      = Except.ok ((compact_item (asItemDict x)).toOption.getD []) := by
    intro x hx
    obtain ⟨v, rfl, hmv⟩ := hxv x hx
    rw [show asItemDict (JVal.obj [("movie", v)]) = [("movie", v)] from rfl,
      compact_item_movie_singleton hmv]
    rfl
  have hc := compactPass_of_items hgi _ hall
  have hgval : ∀ x ∈ xs, ∀ v, x = JVal.obj [("movie", v)] → movieVal v →
      (compact_item (asItemDict x)).toOption.getD []
        = if jTruthy v = true then [("movie", v)] else [] := by
    intro x hx v hxv2 hmv
    rw [hxv2]
    show (compact_item (asItemDict (JVal.obj [("movie", v)]))).toOption.getD [] = _
    rw [show asItemDict (JVal.obj [("movie", v)]) = [("movie", v)] from rfl,
      compact_item_movie_singleton hmv]
    rfl
  have hsize : json_len (setKey r1 "items" (JVal.arr
      ((xs.map fun x => (compact_item (asItemDict x)).toOption.getD []).map
        JVal.obj))) ≤ json_len r1 := by
    apply json_len_setKey_le hgi
    rw [List.map_map]
    apply dumps_arr_le_of_forall₂
    apply forall₂_map_self
    intro x hx
    obtain ⟨v, rfl, hmv⟩ := hxv x hx
    show (dumps (JVal.obj ((compact_item
      (asItemDict (JVal.obj [("movie", v)]))).toOption.getD []))).length
      ≤ (dumps (JVal.obj [("movie", v)])).length
    rw [show asItemDict (JVal.obj [("movie", v)]) = [("movie", v)] from rfl,
      compact_item_movie_singleton hmv]
    by_cases hj : jTruthy v = true
    · rw [if_pos hj]
      exact Nat.le_refl _
    · rw [if_neg hj]
      show (dumps (JVal.obj [])).length ≤ (dumps (JVal.obj [("movie", v)])).length
      exact dumps_obj_sublist_le (List.nil_sublist _)
  by_cases h1 : json_len (setKey r1 "items" (JVal.arr
      ((xs.map fun x => (compact_item (asItemDict x)).toOption.getD []).map
        JVal.obj))) ≤ MAX_RESPONSE_CHARS
  · refine ⟨_, ?_, hsize⟩
    unfold enforce_response_budget
    rw [hc, except_bind_ok, if_pos h1]
  · have hgic : getKey (setKey r1 "items" (JVal.arr
        ((xs.map fun x => (compact_item (asItemDict x)).toOption.getD []).map
          JVal.obj))) "items" = some (JVal.arr
        ((xs.map fun x => (compact_item (asItemDict x)).toOption.getD []).map
          JVal.obj)) := getKey_setKey_self r1 "items" _
    have hmini := miniPass_of_objs hgic
    have hminifix : ((xs.map fun x =>
        (compact_item (asItemDict x)).toOption.getD []).map
        fun it => JVal.obj (mini_item it))
        = (xs.map fun x =>
          (compact_item (asItemDict x)).toOption.getD []).map JVal.obj := by
      apply List.map_congr_left
      intro it hit
      obtain ⟨x, hx, rfl⟩ := List.mem_map.mp hit
      obtain ⟨v, hxv2, hmv⟩ := hxv x hx
      rw [hgval x hx v hxv2 hmv]
      by_cases hj : jTruthy v = true
      · rw [if_pos hj, mini_item_movie_singleton hmv hj]
      · rw [if_neg hj]
        rfl
    rw [hminifix, setKey_self hgic] at hmini
    have htier := tier2Pass_of_objs hgic
    have htfix : ((xs.map fun x =>
        (compact_item (asItemDict x)).toOption.getD []).map
        fun it => JVal.obj (tier2_item it))
        = (xs.map fun x =>
          (compact_item (asItemDict x)).toOption.getD []).map JVal.obj := by
      apply List.map_congr_left
      intro it hit
      obtain ⟨x, hx, rfl⟩ := List.mem_map.mp hit
      obtain ⟨v, hxv2, hmv⟩ := hxv x hx
      rw [hgval x hx v hxv2 hmv]
      by_cases hj : jTruthy v = true
      · rw [if_pos hj, tier2_item_movie_singleton hmv]
      · rw [if_neg hj]
        rfl
    rw [htfix, setKey_self hgic] at htier
    have hpop : noisy_keys.foldl popKey (setKey r1 "items" (JVal.arr
        ((xs.map fun x => (compact_item (asItemDict x)).toOption.getD []).map
          JVal.obj)))
        = setKey r1 "items" (JVal.arr
          ((xs.map fun x => (compact_item (asItemDict x)).toOption.getD []).map
            JVal.obj)) := by
      apply foldl_popKey_absent
      intro k hk
      rw [getKey_setKey_ne r1 _ (noisy_ne_items k hk)]
      exact hnoisy k hk
    rw [hpop] at htier
    have hfin := finalPass_of_objs hgic
    have hffix : (((xs.map fun x =>
        (compact_item (asItemDict x)).toOption.getD []).map
        fun it => JVal.obj [("movie",
          clip_text ((getKey it "movie").getD (JVal.str "")) 70)]).take 10)
        = xs := by
      rw [List.map_map]
      have hmapeq : xs.map ((fun it => JVal.obj [("movie",
          clip_text ((getKey it "movie").getD (JVal.str "")) 70)]) ∘
          fun x => (compact_item (asItemDict x)).toOption.getD []) = xs.map id := by
        apply List.map_congr_left
        intro x hx
        obtain ⟨v, hxv2, hmv⟩ := hxv x hx
        show JVal.obj [("movie", clip_text ((getKey
          ((compact_item (asItemDict x)).toOption.getD []) "movie").getD
          (JVal.str "")) 70)] = id x
        rw [hgval x hx v hxv2 hmv, hxv2]
        by_cases hj : jTruthy v = true
        · rw [if_pos hj]
          have hg2 : getKey [("movie", v)] "movie" = some v := by simp [getKey]
          rw [hg2]
          simp only [Option.getD_some]
          rw [clip_text_movieVal hmv (by norm_num)]
          rfl
        · rw [if_neg hj]
          have hg2 : getKey ([] : RespDict) "movie" = none := rfl
          rw [hg2]
          simp only [Option.getD_none]
          rw [show clip_text (JVal.str "") 70 = JVal.str "" from
            clip_text_str_le_limit (by norm_num) (by norm_num)]
          rcases movieVal_jTruthy_or_empty hmv with hj2 | hj2
          · exact absurd hj2 hj
          · rw [hj2]
            rfl
      rw [hmapeq, List.map_id]
      exact List.take_of_length_le hlen10
    rw [hffix] at hfin
    have hstep : setKey (setKey r1 "items" (JVal.arr
        ((xs.map fun x => (compact_item (asItemDict x)).toOption.getD []).map
          JVal.obj))) "items" (JVal.arr xs) = r1 := by
      rw [setKey_setKey]
      exact setKey_self hgi
    rw [hstep, setKey_self hnote] at hfin
    refine ⟨r1, ?_, Nat.le_refl _⟩
    unfold enforce_response_budget
    rw [hc, except_bind_ok, if_neg h1, hmini, except_bind_ok, if_neg h1, htier,
      except_bind_ok, if_pos (Nat.lt_of_not_le h1), hfin]


/-- Inversion of the enforcer from the second budget check on: the input
holds truthy tier-1-shaped items, and the result is either a within-budget
tier-0 shaped response or a last-resort response. -/
theorem enforce_tail2_shape {m r1 : RespDict} {ys : List RespDict}
    (hnd : (m.map Prod.fst).Nodup)
    (hgi : getKey m "items" = some (JVal.arr (ys.map JVal.obj)))
    (hP : ∀ it ∈ ys, P0item it ∧ ∀ kv ∈ it, jTruthy kv.2 = true)
    (h1 : (if json_len m ≤ MAX_RESPONSE_CHARS then Except.ok m
      else do
        let t ← tier2Pass m
        if MAX_RESPONSE_CHARS < json_len t then finalPass t
        else Except.ok t) = Except.ok r1) :
    (r1.map Prod.fst).Nodup
      ∧ ((json_len r1 ≤ MAX_RESPONSE_CHARS ∧ ShapeA r1) ∨ ShapeFinal r1) := by
  by_cases hA2 : json_len m ≤ MAX_RESPONSE_CHARS
  · rw [if_pos hA2] at h1
    obtain rfl := Except.ok.inj h1
    refine ⟨hnd, Or.inl ⟨hA2, ?_⟩⟩
    unfold ShapeA
    rw [hgi]
    intro x hx
    obtain ⟨it, hit, rfl⟩ := List.mem_map.mp hx
    exact ⟨it, rfl, (hP it hit).1⟩
  · rw [if_neg hA2, tier2Pass_of_objs hgi, except_bind_ok] at h1
    have harr2 : (ys.map fun it => JVal.obj (tier2_item it))
        = (ys.map tier2_item).map JVal.obj := by
      rw [List.map_map]
      rfl
    rw [harr2] at h1
    have hndt : ((noisy_keys.foldl popKey (setKey m "items"
        (JVal.arr ((ys.map tier2_item).map JVal.obj)))).map Prod.fst).Nodup :=
      nodup_keys_foldl_popKey _ (nodup_keys_setKey hnd _ _)
    have hgit : getKey (noisy_keys.foldl popKey (setKey m "items"
        (JVal.arr ((ys.map tier2_item).map JVal.obj)))) "items"
        = some (JVal.arr ((ys.map tier2_item).map JVal.obj)) := by
      rw [getKey_foldl_popKey_ne _ _ _ items_not_noisy]
      exact getKey_setKey_self _ _ _
    have hPz : ∀ it ∈ ys.map tier2_item,
        P0item it ∧ ∀ kv ∈ it, jTruthy kv.2 = true := by
      intro it hit
      obtain ⟨it0, hit0, rfl⟩ := List.mem_map.mp hit
      exact tier2_item_P1 (hP it0 hit0).1 (hP it0 hit0).2
    by_cases hA3 : MAX_RESPONSE_CHARS < json_len (noisy_keys.foldl popKey
        (setKey m "items" (JVal.arr ((ys.map tier2_item).map JVal.obj))))
    · rw [if_pos hA3, finalPass_of_objs hgit] at h1
      obtain rfl := Except.ok.inj h1
      refine ⟨?_, Or.inr ⟨⟨((ys.map tier2_item).map fun it =>
          JVal.obj [("movie",
            clip_text ((getKey it "movie").getD (JVal.str "")) 70)]).take 10,
        ?_, ?_, ?_⟩, ?_, ?_⟩⟩
      · exact nodup_keys_setKey (nodup_keys_setKey hndt _ _) _ _
      · rw [getKey_setKey_ne _ _ (by decide : ("items" : String) ≠ "note")]
        exact getKey_setKey_self _ _ _
      · exact List.length_take_le _ _
      · intro x hx
        have hx2 := List.mem_of_mem_take hx
        obtain ⟨it, hit, rfl⟩ := List.mem_map.mp hx2
        refine ⟨clip_text ((getKey it "movie").getD (JVal.str "")) 70, rfl, ?_⟩
        cases hgm : getKey it "movie" with
        | none =>
            simp only [Option.getD_none]
            rw [show clip_text (JVal.str "") 70 = JVal.str "" from
              clip_text_str_le_limit (by norm_num) (by norm_num)]
            exact Or.inl ⟨"", rfl, by norm_num⟩
        | some w =>
            simp only [Option.getD_some]
            have hmem := getKey_some_mem hgm
            have hjw : jTruthy w = true := (hPz it hit).2 _ hmem
            have hsw : scalarNE w = true := (hPz it hit).1.2.2.1 _ hmem
            cases w with
            | str s =>
                obtain ⟨t, hteq, htle⟩ := @clip_text_str_bound s 70 (by norm_num)
                rw [hteq]
                exact Or.inl ⟨t, rfl, htle⟩
            | int n =>
                rw [show clip_text (JVal.int n) 70 = JVal.int n from rfl]
                have hn : ¬ n = 0 := by simpa [jTruthy] using hjw
                exact Or.inr (Or.inl ⟨n, rfl, hn⟩)
            | bool b =>
                have hb : b = true := by simpa [jTruthy] using hjw
                subst hb
                rw [show clip_text (JVal.bool true) 70 = JVal.bool true from rfl]
                exact Or.inr (Or.inr rfl)
            | null => simp [jTruthy] at hjw
            | arr l2 => simp [scalarNE] at hsw
            | obj l2 => simp [scalarNE] at hsw
      · intro k hk
        rw [getKey_setKey_ne _ _ (noisy_ne_note k hk),
          getKey_setKey_ne _ _ (noisy_ne_items k hk)]
        exact getKey_foldl_popKey_of_mem _ hk (nodup_keys_setKey hnd _ _)
      · exact getKey_setKey_self _ _ _
    · rw [if_neg hA3] at h1
      obtain rfl := Except.ok.inj h1
      refine ⟨hndt, Or.inl ⟨Nat.le_of_not_lt hA3, ?_⟩⟩
      unfold ShapeA
      rw [hgit]
      intro x hx
      obtain ⟨it, hit, rfl⟩ := List.mem_map.mp hx
      exact ⟨it, rfl, (hPz it hit).1⟩

/-- Inversion of the enforcer from the first budget check on. -/
theorem enforce_tail_shape {c r1 : RespDict} {ys : List RespDict}
    (hnd : (c.map Prod.fst).Nodup)
    (hgi : getKey c "items" = some (JVal.arr (ys.map JVal.obj)))
    (hP : ∀ it ∈ ys, P0item it)
    (h1 : (if json_len c ≤ MAX_RESPONSE_CHARS then Except.ok c
      else do
        let m ← miniPass c
        if json_len m ≤ MAX_RESPONSE_CHARS then Except.ok m
        else do
          let t ← tier2Pass m
          if MAX_RESPONSE_CHARS < json_len t then finalPass t
          else Except.ok t) = Except.ok r1) :
    (r1.map Prod.fst).Nodup
      ∧ ((json_len r1 ≤ MAX_RESPONSE_CHARS ∧ ShapeA r1) ∨ ShapeFinal r1) := by
  by_cases hA1 : json_len c ≤ MAX_RESPONSE_CHARS
  · rw [if_pos hA1] at h1
    obtain rfl := Except.ok.inj h1
    refine ⟨hnd, Or.inl ⟨hA1, ?_⟩⟩
    unfold ShapeA
    rw [hgi]
    intro x hx
    obtain ⟨it, hit, rfl⟩ := List.mem_map.mp hx
    exact ⟨it, rfl, hP it hit⟩
  · rw [if_neg hA1, miniPass_of_objs hgi, except_bind_ok] at h1
    have harr : (ys.map fun it => JVal.obj (mini_item it))
        = (ys.map mini_item).map JVal.obj := by
      rw [List.map_map]
      rfl
    rw [harr] at h1
    refine enforce_tail2_shape (nodup_keys_setKey hnd _ _)
      (getKey_setKey_self _ _ _) ?_ h1
    intro it hit
    obtain ⟨it0, hit0, rfl⟩ := List.mem_map.mp hit
    exact mini_item_P1 (hP it0 hit0)

/-- What a successful first pass through the enforcer can return, for inputs
whose dict items hold only scalar values. -/
theorem enforce_ok_shape {resp r1 : RespDict}
    (hnd : (resp.map Prod.fst).Nodup) (hsc : ItemsScalar resp)
    (h1 : enforce_response_budget resp = Except.ok r1) :
    (r1.map Prod.fst).Nodup
      ∧ ((json_len r1 ≤ MAX_RESPONSE_CHARS ∧ ShapeA r1) ∨ ShapeFinal r1) := by
  unfold enforce_response_budget at h1
  cases hgi : getKey resp "items" with
  | none =>
      rw [compactPass_of_absent hgi, except_bind_ok] at h1
      by_cases hA1 : json_len resp ≤ MAX_RESPONSE_CHARS
      · rw [if_pos hA1] at h1
        obtain rfl := Except.ok.inj h1
        refine ⟨hnd, Or.inl ⟨hA1, ?_⟩⟩
        unfold ShapeA
        rw [hgi]
        trivial
      · rw [if_neg hA1, miniPass_of_absent hgi, except_bind_ok] at h1
        exact @enforce_tail2_shape _ r1 [] (nodup_keys_setKey hnd _ _)
          (getKey_setKey_self _ _ _) (fun it hit => by simp at hit) h1
  | some v =>
      cases v with
      | arr xs =>
          have hsc2 : ∀ x ∈ xs, ∀ kv ∈ asItemDict x, isScalar kv.2 = true := by
            intro x hx kv hkv
            unfold ItemsScalar at hsc
            rw [hgi] at hsc
            cases x with
            | obj l => exact hsc _ hx l rfl kv hkv
            | null =>
                simp only [asItemDict] at hkv
                obtain rfl := List.mem_singleton.mp hkv
                rfl
            | bool b =>
                simp only [asItemDict] at hkv
                obtain rfl := List.mem_singleton.mp hkv
                rfl
            | int n =>
                simp only [asItemDict] at hkv
                obtain rfl := List.mem_singleton.mp hkv
                rfl
            | str s =>
                simp only [asItemDict] at hkv
                obtain rfl := List.mem_singleton.mp hkv
                rfl
            | arr l2 =>
                simp only [asItemDict] at hkv
                obtain rfl := List.mem_singleton.mp hkv
                rfl
          have hall : ∀ x ∈ xs, compact_item (asItemDict x)
              = Except.ok ((compact_item (asItemDict x)).toOption.getD []) := by
            intro x hx
            obtain ⟨out, heq, _, _⟩ := compact_item_P0 (hsc2 x hx)
            rw [heq]
            rfl
          have hc := compactPass_of_items hgi _ hall
          rw [hc, except_bind_ok] at h1
          refine enforce_tail_shape (nodup_keys_setKey hnd _ _)
            (getKey_setKey_self _ _ _) ?_ h1
          intro it hit
          obtain ⟨x, hx, rfl⟩ := List.mem_map.mp hit
          obtain ⟨out, heq, hP0, _⟩ := compact_item_P0 (hsc2 x hx)
          rw [heq]
          exact hP0
      | str s =>
          rw [compactPass_of_other hgi (fun l h => JVal.noConfusion h),
            except_bind_ok] at h1
          by_cases hA1 : json_len resp ≤ MAX_RESPONSE_CHARS
          · rw [if_pos hA1] at h1
            obtain rfl := Except.ok.inj h1
            refine ⟨hnd, Or.inl ⟨hA1, ?_⟩⟩
            unfold ShapeA
            rw [hgi]
            trivial
          · rw [if_neg hA1] at h1
            by_cases hs : s = ""
            · subst hs
              rw [miniPass_of_empty_str hgi, except_bind_ok] at h1
              exact @enforce_tail2_shape _ r1 [] (nodup_keys_setKey hnd _ _)
                (getKey_setKey_self _ _ _) (fun it hit => by simp at hit) h1
            · rw [miniPass_err_str hgi hs, except_bind_error] at h1
              exact absurd h1 (by simp)
      | obj l =>
          rw [compactPass_of_other hgi (fun l2 h => JVal.noConfusion h),
            except_bind_ok] at h1
          by_cases hA1 : json_len resp ≤ MAX_RESPONSE_CHARS
          · rw [if_pos hA1] at h1
            obtain rfl := Except.ok.inj h1
            refine ⟨hnd, Or.inl ⟨hA1, ?_⟩⟩
            unfold ShapeA
            rw [hgi]
            trivial
          · rw [if_neg hA1] at h1
            by_cases hl : l.isEmpty = true
            · have hl2 : l = [] := List.isEmpty_iff.mp hl
              subst hl2
              rw [miniPass_of_empty_obj hgi, except_bind_ok] at h1
              exact @enforce_tail2_shape _ r1 [] (nodup_keys_setKey hnd _ _)
                (getKey_setKey_self _ _ _) (fun it hit => by simp at hit) h1
            · rw [miniPass_err_obj hgi hl, except_bind_error] at h1
              exact absurd h1 (by simp)
      | null =>
          rw [compactPass_of_other hgi (fun l h => JVal.noConfusion h),
            except_bind_ok] at h1
          by_cases hA1 : json_len resp ≤ MAX_RESPONSE_CHARS
          · rw [if_pos hA1] at h1
            obtain rfl := Except.ok.inj h1
            refine ⟨hnd, Or.inl ⟨hA1, ?_⟩⟩
            unfold ShapeA
            rw [hgi]
            trivial
          · rw [if_neg hA1, miniPass_err_null hgi, except_bind_error] at h1
            exact absurd h1 (by simp)
      | bool b =>
          rw [compactPass_of_other hgi (fun l h => JVal.noConfusion h),
            except_bind_ok] at h1
          by_cases hA1 : json_len resp ≤ MAX_RESPONSE_CHARS
          · rw [if_pos hA1] at h1
            obtain rfl := Except.ok.inj h1
            refine ⟨hnd, Or.inl ⟨hA1, ?_⟩⟩
            unfold ShapeA
            rw [hgi]
            trivial
          · rw [if_neg hA1, miniPass_err_bool hgi, except_bind_error] at h1
            exact absurd h1 (by simp)
      | int n =>
          rw [compactPass_of_other hgi (fun l h => JVal.noConfusion h),
            except_bind_ok] at h1
          by_cases hA1 : json_len resp ≤ MAX_RESPONSE_CHARS
          · rw [if_pos hA1] at h1
            obtain rfl := Except.ok.inj h1
            refine ⟨hnd, Or.inl ⟨hA1, ?_⟩⟩
            unfold ShapeA
            rw [hgi]
            trivial
          · rw [if_neg hA1, miniPass_err_int hgi, except_bind_error] at h1
            exact absurd h1 (by simp)


/-- C8 (amended): for responses with duplicate-free top-level keys whose
`items` dict elements hold only scalar values, a second application of
`enforce_response_budget` succeeds and never yields a larger serialization
than the first. -/
theorem C8_enforcer_nonexpanding {resp r1 : RespDict}
    (hnd : (resp.map Prod.fst).Nodup) (hsc : ItemsScalar resp)
    (h1 : enforce_response_budget resp = Except.ok r1) :
    ∃ r2, enforce_response_budget r1 = Except.ok r2
      ∧ json_len r2 ≤ json_len r1 := by
  obtain ⟨hnd1, hdis⟩ := enforce_ok_shape hnd hsc h1
  rcases hdis with ⟨hle, hA⟩ | hF
  · exact enforce_shapeA_le hA hle
  · exact enforce_shapeFinal_fix hF

/-- C8 counterexample: an item whose `title` is the empty list `[]`.  The
first pass stringifies it to the non-empty (hence truthy) string `"[]"`;
the second pass then backfills a `movie` field from that title, growing the
serialized response from 26 to 39 characters — the enforcer is not
monotonically non-expanding on all inputs. -/
theorem C8_counterexample :
    enforce_response_budget growResp = Except.ok growMid
      ∧ enforce_response_budget growMid = Except.ok growOut
      ∧ json_len growMid < json_len growOut := by
  refine ⟨rfl, rfl, ?_⟩
  decide

/-- C8 witness: the amended non-expansion theorem applied to a concrete
well-shaped response. -/
theorem C8_enforcer_nonexpanding_witness :
    ∃ r2, enforce_response_budget
        [("items", JVal.arr [JVal.obj [("movie", JVal.str "A")]])]
      = Except.ok r2
      ∧ json_len r2
        ≤ json_len [("items", JVal.arr [JVal.obj [("movie", JVal.str "A")]])] :=
  @C8_enforcer_nonexpanding
    [("items", JVal.arr [JVal.obj [("movie", JVal.str "A")]])]
    [("items", JVal.arr [JVal.obj [("movie", JVal.str "A")]])]
    (by decide)
    (by
      unfold ItemsScalar
      intro x hx l hl kv hkv
      obtain rfl := List.mem_singleton.mp hx
      injection hl with hl2
      subst hl2
      obtain rfl := List.mem_singleton.mp hkv
      rfl)
    rfl


/-! ### Helpers for the budget-ceiling bound on pipeline-shaped responses -/

theorem isScalar_of_isStrVal {v : JVal} (h : isStrVal v = true) :
    isScalar v = true := by
  cases v <;> simp_all [isStrVal, isScalar]

/-- The second-tier item preserves string-valuedness. -/
theorem mini_item_str {it : RespDict} (hs : ∀ kv ∈ it, isStrVal kv.2 = true) :
    ∀ kv ∈ mini_item it, isStrVal kv.2 = true := by
  intro kv hkv
  have hdef : mini_item it
      = (if (!oTruthy (getKey (miniSelect it) "movie")
            && oTruthy (getKey it "title")) = true
          then setKey (miniSelect it) "movie" ((getKey it "title").getD JVal.null)
          else miniSelect it).map fun kv =>
          (kv.1, clip_text kv.2
            (if kv.1 = "vibe_point" || kv.1 = "reason" then 120 else 80)) := rfl
  rw [hdef] at hkv
  obtain ⟨kw, hkw, rfl⟩ := List.mem_map.mp hkv
  show isStrVal (clip_text kw.2 _) = true
  apply isStrVal_clip_text
  by_cases hc : (!oTruthy (getKey (miniSelect it) "movie")
      && oTruthy (getKey it "title")) = true
  · rw [if_pos hc] at hkw
    rcases mem_setKey hkw with h2 | h2
    · obtain ⟨_, hg, _⟩ := mem_miniSelect h2
      exact hs _ (getKey_some_mem hg)
    · have htr : oTruthy (getKey it "title") = true := by
        cases hx : oTruthy (getKey it "title")
        · rw [hx] at hc; simp at hc
        · rfl
      cases hgt : getKey it "title" with
      | none => rw [hgt] at htr; simp [oTruthy] at htr
      | some tv =>
          rw [h2, hgt]
          simp only [Option.getD_some]
          exact hs _ (getKey_some_mem hgt)
  · rw [if_neg hc] at hkw
    obtain ⟨_, hg, _⟩ := mem_miniSelect hkw
    exact hs _ (getKey_some_mem hg)

/-- The third-tier clip preserves string-valuedness. -/
theorem tier2_item_str {it : RespDict} (hs : ∀ kv ∈ it, isStrVal kv.2 = true) :
    ∀ kv ∈ tier2_item it, isStrVal kv.2 = true := by
  intro kv hkv
  unfold tier2_item at hkv
  obtain ⟨kw, hkw, rfl⟩ := List.mem_map.mp hkv
  show isStrVal (clip_text kw.2 _) = true
  exact isStrVal_clip_text (hs kw hkw) _

/-- A duplicate-free dict whose keys all equal `items` and whose `items`
lookup yields `v` is the singleton `[("items", v)]`. -/
theorem eq_singleton_of_keys {l : RespDict} {v : JVal}
    (hk : ∀ kv ∈ l, kv.1 = "items") (hnd : (l.map Prod.fst).Nodup)
    (hg : getKey l "items" = some v) : l = [("items", v)] := by
  cases l with
  | nil => simp [getKey] at hg
  | cons e rest =>
      obtain ⟨k, w⟩ := e
      have hk1 : k = "items" := hk (k, w) (by simp)
      subst hk1
      simp only [getKey, if_pos rfl] at hg
      obtain rfl := (Option.some.injEq _ _).mp hg
      cases rest with
      | nil => rfl
      | cons e2 rest2 =>
          obtain ⟨k2, w2⟩ := e2
          have hk2 : k2 = "items" := hk (k2, w2) (by simp)
          subst hk2
          simp at hnd

theorem dumps_str_length (s : String) :
    (dumps (JVal.str s)).length = 2 + (escStr s.data).length := by
  show ('"' :: escStr s.data ++ ['"']).length = _
  simp only [List.length_cons, List.length_append, List.length_singleton,
    List.length_nil]
  omega

/-- A last-resort item of at most 70 string characters serializes in at
most 434 characters. -/
theorem dumps_movie_singleton_le {t : String} (ht : t.length ≤ 70) :
    (dumps (JVal.obj [("movie", JVal.str t)])).length ≤ 434 := by
  rw [dumps_obj_length, dumpsObj_length]
  simp only [List.map_cons, List.map_nil, List.sum_cons, List.sum_nil,
    List.length_cons, List.length_nil]
  have h1 : entryLen ("movie", JVal.str t)
      = (escStr "movie".data).length + 3 + (dumps (JVal.str t)).length := rfl
  have h2 : (escStr "movie".data).length = 5 := by decide
  have h3 := dumps_str_length t
  have h4 : (escStr t.data).length ≤ 6 * t.data.length := escStr_length_le t.data
  have h5 : t.data.length ≤ 70 := ht
  omega

/-- At most ten elements of at most `b` characters each serialize as an
array of at most `11 + 10 * b` characters. -/
theorem dumps_arr_bound {l : List JVal} {b : Nat}
    (hb : ∀ x ∈ l, (dumps x).length ≤ b) (hn : l.length ≤ 10) :
    (dumps (JVal.arr l)).length ≤ 11 + 10 * b := by
  rw [dumps_arr_length, dumpsArr_length]
  have hsum : ∀ l2 : List JVal, (∀ x ∈ l2, (dumps x).length ≤ b) →
      (l2.map fun v => (dumps v).length).sum ≤ l2.length * b := by
    intro l2
    induction l2 with
    | nil => intro _; simp
    | cons a rest ih =>
        intro h
        simp only [List.map_cons, List.sum_cons, List.length_cons]
        have ha := h a (by simp)
        have hr := ih fun x hx => h x (by simp [hx])
        have : (rest.length + 1) * b = rest.length * b + b := by ring
        omega
  have := hsum l hb
  have h2 : l.length * b ≤ 10 * b := Nat.mul_le_mul_right b hn
  omega

/-- The serialized size of the final collapsed response. -/
theorem json_len_final_pair {F : List JVal}
    (hF : ∀ x ∈ F, ∃ t : String, x = JVal.obj [("movie", JVal.str t)]
      ∧ t.length ≤ 70)
    (hn : F.length ≤ 10) :
    json_len [("items", JVal.arr F), ("note", JVal.str noteText)]
      ≤ MAX_RESPONSE_CHARS := by
  rw [json_len_eq]
  simp only [List.map_cons, List.map_nil, List.sum_cons, List.sum_nil,
    List.length_cons, List.length_nil]
  have hd : (dumps (JVal.arr F)).length ≤ 11 + 10 * 434 := by
    apply dumps_arr_bound _ hn
    intro x hx
    obtain ⟨t, rfl, ht⟩ := hF x hx
    exact dumps_movie_singleton_le ht
  have h1 : entryLen ("items", JVal.arr F)
      = (escStr "items".data).length + 3 + (dumps (JVal.arr F)).length := rfl
  have h2 : (escStr "items".data).length = 5 := by decide
  have h3 : entryLen ("note", JVal.str noteText) ≤ 400 := by decide
  show _ ≤ 90000
  omega


theorem contains_eq_true_of_mem {l : List String} {a : String} (h : a ∈ l) :
    l.contains a = true := by
  induction l with
  | nil => simp at h
  | cons b rest ih =>
      rcases List.mem_cons.mp h with rfl | h2
      · simp [List.contains_cons]
      · simp only [List.contains_cons]
        rw [ih h2]
        simp

theorem setKey_singleton_items (v w : JVal) :
    setKey [("items", v)] "items" w = [("items", w)] := by
  simp [setKey]

theorem setKey_items_note (w nv : JVal) :
    setKey [("items", w)] "note" nv = [("items", w), ("note", nv)] := by
  simp [setKey]

/-- Ceiling for the tail of the enforcer from the second budget check on,
for responses whose non-`items` keys are all noisy and whose items are
string-valued dicts. -/
theorem C2_tail2 {m : RespDict} {ys : List RespDict}
    (hkeys : ∀ kv ∈ m, kv.1 = "items" ∨ kv.1 ∈ noisy_keys)
    (hnd : (m.map Prod.fst).Nodup)
    (hgi : getKey m "items" = some (JVal.arr (ys.map JVal.obj)))
    (hstr : ∀ it ∈ ys, ∀ kv ∈ it, isStrVal kv.2 = true) :
    ∃ out, (if json_len m ≤ MAX_RESPONSE_CHARS then Except.ok m
      else do
        let t ← tier2Pass m
        if MAX_RESPONSE_CHARS < json_len t then finalPass t
        else Except.ok t) = Except.ok out
      ∧ json_len out ≤ MAX_RESPONSE_CHARS := by
  by_cases hA2 : json_len m ≤ MAX_RESPONSE_CHARS
  · exact ⟨m, by rw [if_pos hA2], hA2⟩
  · rw [if_neg hA2, tier2Pass_of_objs hgi, except_bind_ok]
    have harr2 : (ys.map fun it => JVal.obj (tier2_item it))
        = (ys.map tier2_item).map JVal.obj := by
      rw [List.map_map]
      rfl
    rw [harr2]
    have hndt : ((noisy_keys.foldl popKey (setKey m "items"
        (JVal.arr ((ys.map tier2_item).map JVal.obj)))).map Prod.fst).Nodup :=
      nodup_keys_foldl_popKey _ (nodup_keys_setKey hnd _ _)
    have hgit : getKey (noisy_keys.foldl popKey (setKey m "items"
        (JVal.arr ((ys.map tier2_item).map JVal.obj)))) "items"
        = some (JVal.arr ((ys.map tier2_item).map JVal.obj)) := by
      rw [getKey_foldl_popKey_ne _ _ _ items_not_noisy]
      exact getKey_setKey_self _ _ _
    have hkt : ∀ kv ∈ noisy_keys.foldl popKey (setKey m "items"
        (JVal.arr ((ys.map tier2_item).map JVal.obj))), kv.1 = "items" := by
      intro kv hkv
      rw [foldl_popKey_eq_filter noisy_keys _ (nodup_keys_setKey hnd _ _)] at hkv
      have hmem := List.mem_of_mem_filter hkv
      have hpk : (!(noisy_keys.contains kv.1)) = true := by
        have := List.of_mem_filter hkv
        simpa using this
      have hnotnoisy : kv.1 ∉ noisy_keys := by
        intro hmem2
        rw [contains_eq_true_of_mem hmem2] at hpk
        simp at hpk
      rcases mem_setKey hmem with h2 | h2
      · rcases hkeys kv h2 with h3 | h3
        · exact h3
        · exact absurd h3 hnotnoisy
      · rw [h2]
    have hsingle := eq_singleton_of_keys hkt hndt hgit
    by_cases hA3 : MAX_RESPONSE_CHARS < json_len (noisy_keys.foldl popKey
        (setKey m "items" (JVal.arr ((ys.map tier2_item).map JVal.obj))))
    · rw [if_pos hA3, finalPass_of_objs hgit, hsingle, setKey_singleton_items,
        setKey_items_note]
      refine ⟨_, rfl, ?_⟩
      apply json_len_final_pair _ (List.length_take_le _ _)
      intro x hx
      have hx2 := List.mem_of_mem_take hx
      obtain ⟨it, hit, rfl⟩ := List.mem_map.mp hx2
      obtain ⟨it0, hit0, rfl⟩ := List.mem_map.mp hit
      have hstr2 : ∀ kv ∈ tier2_item it0, isStrVal kv.2 = true :=
        tier2_item_str (hstr it0 hit0)
      cases hgm : getKey (tier2_item it0) "movie" with
      | none =>
          simp only [Option.getD_none]
          rw [show clip_text (JVal.str "") 70 = JVal.str "" from
            clip_text_str_le_limit (by norm_num) (by norm_num)]
          exact ⟨"", rfl, by norm_num⟩
      | some w =>
          simp only [Option.getD_some]
          have hsw : isStrVal w = true := hstr2 _ (getKey_some_mem hgm)
          cases w with
          | str s =>
              obtain ⟨t2, hteq, htle⟩ := @clip_text_str_bound s 70 (by norm_num)
              rw [hteq]
              exact ⟨t2, rfl, htle⟩
          | null => simp [isStrVal] at hsw
          | bool b => simp [isStrVal] at hsw
          | int n => simp [isStrVal] at hsw
          | arr l2 => simp [isStrVal] at hsw
          | obj l2 => simp [isStrVal] at hsw
    · rw [if_neg hA3]
      exact ⟨_, rfl, Nat.le_of_not_lt hA3⟩

/-- Ceiling for the tail of the enforcer from the first budget check on. -/
theorem C2_tail {c : RespDict} {ys : List RespDict}
    (hkeys : ∀ kv ∈ c, kv.1 = "items" ∨ kv.1 ∈ noisy_keys)
    (hnd : (c.map Prod.fst).Nodup)
    (hgi : getKey c "items" = some (JVal.arr (ys.map JVal.obj)))
    (hstr : ∀ it ∈ ys, ∀ kv ∈ it, isStrVal kv.2 = true) :
    ∃ out, (if json_len c ≤ MAX_RESPONSE_CHARS then Except.ok c
      else do
        let m ← miniPass c
        if json_len m ≤ MAX_RESPONSE_CHARS then Except.ok m
        else do
          let t ← tier2Pass m
          if MAX_RESPONSE_CHARS < json_len t then finalPass t
          else Except.ok t) = Except.ok out
      ∧ json_len out ≤ MAX_RESPONSE_CHARS := by
  by_cases hA1 : json_len c ≤ MAX_RESPONSE_CHARS
  · exact ⟨c, by rw [if_pos hA1], hA1⟩
  · rw [if_neg hA1, miniPass_of_objs hgi, except_bind_ok]
    have harr : (ys.map fun it => JVal.obj (mini_item it))
        = (ys.map mini_item).map JVal.obj := by
      rw [List.map_map]
      rfl
    rw [harr]
    apply C2_tail2
    · intro kv hkv
      rcases mem_setKey hkv with h2 | h2
      · exact hkeys kv h2
      · rw [h2]
        exact Or.inl rfl
    · exact nodup_keys_setKey hnd _ _
    · exact getKey_setKey_self _ _ _
    · intro it hit
      obtain ⟨it0, hit0, rfl⟩ := List.mem_map.mp hit
      exact mini_item_str (hstr it0 hit0)

/-- C2 (amended): for pipeline-shaped responses — duplicate-free top-level
keys drawn from `items` and the noisy keys, with `items` a list of
string-valued dicts — the enforcer succeeds and its output serializes to at
most `MAX_RESPONSE_CHARS` characters.  (The unrestricted claim is refuted by
`C2_counterexample`: content under any other top-level key passes through
every tier unshrunk.) -/
theorem C2_budget_ceiling {resp : RespDict} (hP : PipelineShaped resp) :
    ∃ out, enforce_response_budget resp = Except.ok out
      ∧ json_len out ≤ MAX_RESPONSE_CHARS := by
  obtain ⟨hnd, hkeys, hitems⟩ := hP
  unfold enforce_response_budget
  cases hgi : getKey resp "items" with
  | none =>
      rw [compactPass_of_absent hgi, except_bind_ok]
      by_cases hA1 : json_len resp ≤ MAX_RESPONSE_CHARS
      · exact ⟨resp, by rw [if_pos hA1], hA1⟩
      · rw [if_neg hA1, miniPass_of_absent hgi, except_bind_ok]
        apply @C2_tail2 (setKey resp "items" (JVal.arr [])) []
        · intro kv hkv
          rcases mem_setKey hkv with h2 | h2
          · exact hkeys kv h2
          · rw [h2]
            exact Or.inl rfl
        · exact nodup_keys_setKey hnd _ _
        · exact getKey_setKey_self _ _ _
        · intro it hit
          simp at hit
  | some v =>
      rw [hgi] at hitems
      cases v with
      | arr xs =>
          have hstr2 : ∀ x ∈ xs, ∀ kv ∈ asItemDict x, isStrVal kv.2 = true := by
            intro x hx kv hkv
            obtain ⟨l, rfl, hl⟩ := hitems x hx
            exact hl kv hkv
          have hall : ∀ x ∈ xs, compact_item (asItemDict x)
              = Except.ok ((compact_item (asItemDict x)).toOption.getD []) := by
            intro x hx
            obtain ⟨out, heq, _, _⟩ := compact_item_P0
              (fun kv hkv => isScalar_of_isStrVal (hstr2 x hx kv hkv))
            rw [heq]
            rfl
          have hc := compactPass_of_items hgi _ hall
          rw [hc, except_bind_ok]
          apply C2_tail
          · intro kv hkv
            rcases mem_setKey hkv with h2 | h2
            · exact hkeys kv h2
            · rw [h2]
              exact Or.inl rfl
          · exact nodup_keys_setKey hnd _ _
          · exact getKey_setKey_self _ _ _
          · intro it hit
            obtain ⟨x, hx, rfl⟩ := List.mem_map.mp hit
            obtain ⟨out, heq, _, hso⟩ := compact_item_P0
              (fun kv hkv => isScalar_of_isStrVal (hstr2 x hx kv hkv))
            rw [heq]
            exact hso (hstr2 x hx)
      | null => exact hitems.elim
      | bool b => exact hitems.elim
      | int n => exact hitems.elim
      | str s => exact hitems.elim
      | obj l => exact hitems.elim


theorem entryLen_pair (k : String) (v : JVal) :
    entryLen (k, v) = (escStr k.data).length + 3 + (dumps v).length := rfl

theorem json_len_single (k : String) (v : JVal) :
    json_len [(k, v)] = 2 + entryLen (k, v) := by
  rw [json_len_eq]
  simp only [List.map_cons, List.map_nil, List.sum_cons, List.sum_nil,
    List.length_cons, List.length_nil]
  omega

theorem json_len_two (k1 k2 : String) (v1 v2 : JVal) :
    json_len [(k1, v1), (k2, v2)]
      = 2 + entryLen (k1, v1) + entryLen (k2, v2) + 1 := by
  rw [json_len_eq]
  simp only [List.map_cons, List.map_nil, List.sum_cons, List.sum_nil,
    List.length_cons, List.length_nil]
  omega

theorem json_len_three (k1 k2 k3 : String) (v1 v2 v3 : JVal) :
    json_len [(k1, v1), (k2, v2), (k3, v3)]
      = 2 + entryLen (k1, v1) + entryLen (k2, v2) + entryLen (k3, v3) + 2 := by
  rw [json_len_eq]
  simp only [List.map_cons, List.map_nil, List.sum_cons, List.sum_nil,
    List.length_cons, List.length_nil]
  omega

/-- C2 counterexample: a 95000-character payload under the top-level key
`"x"`.  No tier of the enforcer ever touches keys other than `items`, the
noisy keys and `note`, so the oversized content passes through every tier
and the returned response serializes to 95079 characters — far above the
90000-character ceiling — without any error. -/
theorem C2_counterexample :
    enforce_response_budget badResp = Except.ok badOut
      ∧ MAX_RESPONSE_CHARS < json_len badOut := by
  have hdata : bigText.data = List.replicate 95000 'a' := rfl
  have hesc : (escStr bigText.data).length = 95000 := by
    rw [hdata, escStr_replicate_a]
    exact List.length_replicate 95000 'a'
  have hx1 : (escStr "x".data).length = 1 := by decide
  have hdump : (dumps (JVal.str bigText)).length = 95002 := by
    rw [dumps_str_length, hesc]
  have hentryx : entryLen ("x", JVal.str bigText) = 95006 := by
    rw [entryLen_pair, hx1, hdump]
  have hentryi : entryLen ("items", JVal.arr []) = 10 := by decide
  have hentryn : entryLen ("note", JVal.str noteText) = 58 := by decide
  have hJ1 : json_len badResp = 95008 := by
    rw [show badResp = [("x", JVal.str bigText)] from rfl, json_len_single,
      hentryx]
  have hginone : getKey badResp "items" = none := by
    simp [badResp, getKey]
  have hm : miniPass badResp
      = Except.ok [("x", JVal.str bigText), ("items", JVal.arr [])] := by
    rw [miniPass_of_absent hginone, setKey_of_absent hginone]
    rfl
  have hJ2 : json_len [("x", JVal.str bigText), ("items", JVal.arr [])]
      = 95019 := by
    rw [json_len_two, hentryx, hentryi]
  have hgim : getKey [("x", JVal.str bigText), ("items", JVal.arr [])] "items"
      = some (JVal.arr []) := by
    simp [getKey]
  have hms : setKey [("x", JVal.str bigText), ("items", JVal.arr [])] "items"
      (JVal.arr []) = [("x", JVal.str bigText), ("items", JVal.arr [])] :=
    setKey_self hgim
  have hpops : noisy_keys.foldl popKey
      [("x", JVal.str bigText), ("items", JVal.arr [])]
      = [("x", JVal.str bigText), ("items", JVal.arr [])] := by
    apply foldl_popKey_absent
    intro k hk
    fin_cases hk <;> simp [getKey]
  have ht : tier2Pass [("x", JVal.str bigText), ("items", JVal.arr [])]
      = Except.ok [("x", JVal.str bigText), ("items", JVal.arr [])] := by
    rw [@tier2Pass_of_objs [("x", JVal.str bigText), ("items", JVal.arr [])]
      [] hgim]
    show Except.ok (noisy_keys.foldl popKey
      (setKey [("x", JVal.str bigText), ("items", JVal.arr [])] "items"
        (JVal.arr []))) = _
    rw [hms, hpops]
  have hgnote : getKey [("x", JVal.str bigText), ("items", JVal.arr [])] "note"
      = none := by
    simp [getKey]
  have hf : finalPass [("x", JVal.str bigText), ("items", JVal.arr [])]
      = Except.ok badOut := by
    rw [@finalPass_of_objs [("x", JVal.str bigText), ("items", JVal.arr [])]
      [] hgim]
    show Except.ok (setKey (setKey [("x", JVal.str bigText), ("items", JVal.arr [])]
      "items" (JVal.arr [])) "note" (JVal.str noteText)) = _
    rw [hms, setKey_of_absent hgnote]
    rfl
  have hJ3 : json_len badOut = 95078 := by
    rw [show badOut = [("x", JVal.str bigText), ("items", JVal.arr []),
        ("note", JVal.str noteText)] from rfl,
      json_len_three, hentryx, hentryi, hentryn]
  refine ⟨?_, ?_⟩
  · unfold enforce_response_budget
    rw [compactPass_of_absent hginone, except_bind_ok,
      if_neg (by rw [hJ1]; decide),
      hm, except_bind_ok,
      if_neg (by rw [hJ2]; decide),
      ht, except_bind_ok,
      if_pos (by rw [hJ2]; decide),
      hf]
  · rw [hJ3]
    decide

/-- C2 witness: the amended ceiling theorem applied to a concrete
pipeline-shaped response. -/
theorem C2_budget_ceiling_witness :
    PipelineShaped [("items", JVal.arr [])]
      ∧ ∃ out, enforce_response_budget [("items", JVal.arr [])] = Except.ok out
        ∧ json_len out ≤ MAX_RESPONSE_CHARS := by
  have hP : PipelineShaped [("items", JVal.arr [])] := by
    refine ⟨by decide, ?_, ?_⟩
    · intro kv hkv
      obtain rfl := List.mem_singleton.mp hkv
      exact Or.inl rfl
    · show ∀ x ∈ ([] : List JVal), ∃ l, x = JVal.obj l
        ∧ ∀ kv ∈ l, isStrVal kv.2 = true
      intro x hx
      simp at hx
  exact ⟨hP, C2_budget_ceiling hP⟩

end MovieFilter
